import Mathlib

/-!
# Verification of the ustate statechart interpreter core

A shallow embedding of the core of the `ustate` library
(`src/core/stateValue.ts`, `src/core/transition.ts`, `src/core/machine.ts`,
`src/core/actor.ts`) in Lean 4, together with theorems settling the claims
about its specification.

Modelling conventions, used consistently below:

* A JavaScript plain object is modelled as an ordered association list
  `List (String × α)` (JS objects iterate string keys in insertion order).
  `jsLookup` is property access, `jsSet` is property assignment (which keeps
  the original position of an existing key, as JS does), and `jsSpread` is
  the object-spread `{...a, ...b}`.
* `StateValue` is modelled without the array alternative: the interpreter
  only ever constructs state values out of `pathToStateValue`,
  `wrapValueInPath`, `mergeStateValues` and `recursiveResolve`, all of which
  produce strings or plain objects, so the `Array.isArray` branches of the
  source are unreachable in the embedded fragment and are dropped.
* In-place mutation of the user context by actions is modelled by threading
  the context functionally through action lists; the value an action returns
  (its "effect", pushed onto the `effects` array when not `undefined`) is
  modelled as an optional `String` marker.
* `console.warn` / `console.error` logging has no semantic content; where a
  claim mentions it (the `processAlways` iteration cap) the embedding returns
  a `Bool` flag in its place.
-/

namespace UState

/-- Property access `o[k]` on a JS object: the entry list is keyed uniquely,
so the first match is the value. -/
def jsLookup (l : List (String × α)) (k : String) : Option α :=
  match l with
  | [] => none
  | (k', v) :: rest => if k' = k then some v else jsLookup rest k

/-- Property assignment `o[k] = v` on a JS object: overwrites in place when
the key exists (keeping its position), appends otherwise. -/
def jsSet (l : List (String × α)) (k : String) (v : α) : List (String × α) :=
  match l with
  | [] => [(k, v)]
  | (k', v') :: rest =>
    if k' = k then (k', v) :: rest else (k', v') :: jsSet rest k v

/-- Object spread `{...a, ...b}`: all of `b`'s properties assigned over `a`. -/
def jsSpread (a b : List (String × α)) : List (String × α) :=
  b.foldl (fun acc kv => jsSet acc kv.1 kv.2) a

/-- `key in o` membership test. -/
def jsHas (l : List (String × α)) (k : String) : Bool :=
  (jsLookup l k).isSome

/-- Splitter for `String.prototype.split('.')`, written over the character
list so that it evaluates inside the kernel. -/
def splitDotAux : List Char → List Char → List String
  | [], acc => [String.mk acc.reverse]
  | c :: rest, acc =>
    if c = '.' then String.mk acc.reverse :: splitDotAux rest []
    else splitDotAux rest (c :: acc)

/-- `s.split('.')` of JavaScript: always returns at least one segment. -/
def jsSplitDot (s : String) : List String := splitDotAux s.data []

/-- `array.join('.')` of JavaScript. -/
def jsJoinDot : List String → String
  | [] => ""
  | [s] => s
  | s :: rest => s ++ "." ++ jsJoinDot rest

/-- `s.includes('.')` of JavaScript. -/
def containsDot (s : String) : Bool := s.data.contains '.'

/-- `StateValue` (src/core/types.ts): a leaf state name or a nested record.
The `StateValueArray` alternative is omitted (see the header comment). -/
inductive SV where
  | leaf (s : String)
  | obj (entries : List (String × SV))
deriving Repr

mutual

/-- Decidable equality for `SV` (not derivable automatically for this nested
inductive). -/
def SV.decEq : (a b : SV) → Decidable (a = b)
  | .leaf a, .leaf b =>
    match String.decEq a b with
    | isTrue h => isTrue (by rw [h])
    | isFalse h => isFalse (by intro c; injection c; contradiction)
  | .leaf _, .obj _ => isFalse (by intro c; cases c)
  | .obj _, .leaf _ => isFalse (by intro c; cases c)
  | .obj a, .obj b =>
    match SV.decEqEntries a b with
    | isTrue h => isTrue (by rw [h])
    | isFalse h => isFalse (by intro c; injection c; contradiction)

/-- Decidable equality for `SV` entry lists. -/
def SV.decEqEntries : (a b : List (String × SV)) → Decidable (a = b)
  | [], [] => isTrue rfl
  | [], _ :: _ => isFalse (by intro c; cases c)
  | _ :: _, [] => isFalse (by intro c; cases c)
  | (k1, v1) :: r1, (k2, v2) :: r2 =>
    match String.decEq k1 k2 with
    | isFalse h => isFalse (by
        intro c; injection c with hh _; injection hh; contradiction)
    | isTrue hk =>
      match SV.decEq v1 v2 with
      | isFalse h => isFalse (by
          intro c; injection c with hh _; injection hh; contradiction)
      | isTrue hv =>
        match SV.decEqEntries r1 r2 with
        | isFalse h => isFalse (by intro c; injection c; contradiction)
        | isTrue hr => isTrue (by rw [hk, hv, hr])

end

instance : DecidableEq SV := SV.decEq

/-- `pathToStateValue` (src/core/stateValue.ts):
`['parent','child'] ↦ { parent: 'child' }`; the empty path gives `""`. -/
def pathToStateValue : List String → SV
  | [] => .leaf ""
  | [s] => .leaf s
  | first :: rest => .obj [(first, pathToStateValue rest)]

mutual

/-- `stateValueToPaths` (src/core/stateValue.ts): the root-to-leaf paths
encoded by a state value. -/
def stateValueToPaths : SV → List (List String)
  | .leaf s => [[s]]
  | .obj entries => entriesToPaths entries

/-- The object clause of `stateValueToPaths`: each entry contributes its
child paths prefixed with its key, in entry order. -/
def entriesToPaths : List (String × SV) → List (List String)
  | [] => []
  | (k, v) :: rest => (stateValueToPaths v).map (k :: ·) ++ entriesToPaths rest

end

/-- `pathsMatch` (src/core/stateValue.ts): the test path is no longer than
the current path and agrees with it position by position. -/
def pathsMatch (currentPath testPath : List String) : Bool :=
  if testPath.length > currentPath.length then false
  else List.range testPath.length |>.all fun i =>
    currentPath.getD i "" = testPath.getD i ""

/-- `matchesStateValue` (src/core/stateValue.ts). A dotted-string test is
split on `.` and matched as a path prefix; a plain string test succeeds when
some active path **contains** the name at any position (`path.includes`);
a structured test succeeds when each of its paths prefix-matches some active
path. -/
def matchesStateValue (current : SV) (test : SV) : Bool :=
  match test with
  | .leaf t =>
    if containsDot t then
      let testPath := jsSplitDot t
      (stateValueToPaths current).any fun p => pathsMatch p testPath
    else
      (stateValueToPaths current).any fun p => p.contains t
  | _ =>
    let currentPaths := stateValueToPaths current
    let testPaths := stateValueToPaths test
    testPaths.all fun tp => currentPaths.any fun cp => pathsMatch cp tp

/-- `deepMergeStateValues` (src/core/stateValue.ts), arrays omitted: source
entries are assigned over the target, merging recursively when both sides
are objects and letting the source win otherwise.  The fuel only bounds
the recursion depth (the source recursion is bounded by the value
structure); every caller passes it amply and the fuel-0 fallback is never
reached there. -/
def deepMergeStateValues : Nat → List (String × SV) → List (String × SV) →
    List (String × SV)
  | 0, target, _ => target
  | fuel + 1, target, source =>
    match source with
    | [] => target
    | (k, v) :: rest =>
      let target' :=
        match jsLookup target k with
        | some targetValue =>
          match targetValue, v with
          | .obj te, .obj se =>
            jsSet target k (.obj (deepMergeStateValues fuel te se))
          | _, _ => jsSet target k v
        | none => jsSet target k v
      deepMergeStateValues fuel target' rest

/-- The accumulation loop of `mergeStateValues`: a string contributes the
entry `{s: s}`, an object is deep-merged into the accumulator. -/
def mergeFold : Nat → List (String × SV) → List SV → List (String × SV)
  | 0, merged, _ => merged
  | fuel + 1, merged, values =>
    match values with
    | [] => merged
    | .leaf s :: rest => mergeFold fuel (jsSet merged s (.leaf s)) rest
    | .obj entries :: rest =>
      mergeFold fuel (deepMergeStateValues fuel merged entries) rest

/-- `mergeStateValues` (src/core/stateValue.ts), arrays omitted. -/
def mergeStateValues (fuel : Nat) (values : List SV) : SV :=
  match values with
  | [] => .leaf ""
  | [v] => v
  | _ =>
    if values.all fun v => match v with | .leaf _ => true | _ => false then
      values.headD (.leaf "")
    else
      .obj (mergeFold fuel [] values)

mutual

/-- `getHistoryValue` (src/core/stateValue.ts), arrays omitted: `deep`
returns the stored value verbatim; `shallow` maps a single-key object to its
key (the immediate-child name) and recurses into each region of a multi-key
(parallel) object. -/
def getHistoryValue (historyValue : SV) (deep : Bool) : SV :=
  if deep then historyValue
  else
    match historyValue with
    | .leaf s => .leaf s
    | .obj [] => .obj []
    | .obj [(k, _)] => .leaf k
    | .obj entries => .obj (shallowEntries entries)

/-- The multi-key clause of shallow `getHistoryValue`. -/
def shallowEntries : List (String × SV) → List (String × SV)
  | [] => []
  | (k, v) :: rest => (k, getHistoryValue v false) :: shallowEntries rest

end

/-- `getValueAtPath` (src/core/transition.ts): walk the value along the path
through object keys; fall off with `none` on a leaf or a missing key. -/
def getValueAtPath (value : SV) (path : List String) : Option SV :=
  match path with
  | [] => some value
  | key :: rest =>
    match value with
    | .obj entries =>
      match jsLookup entries key with
      | some v => getValueAtPath v rest
      | none => none
    | .leaf _ => none

/-- `wrapValueInPath` (src/core/transition.ts). -/
def wrapValueInPath (path : List String) (value : SV) : SV :=
  match path with
  | [] => value
  | first :: rest => .obj [(first, wrapValueInPath rest value)]

/-! ## Machine definition model (src/core/types.ts, src/core/machine.ts)

The embedding is parameterised by the context type `Ctx`.  An action is
either a direct callable or a symbolic `{type: ...}` reference; a direct
callable receives the (mutable) context and the event and is modelled
functionally as returning the updated context together with the value it
returned (`none` for `undefined`), the latter collected into `effects`. -/

variable {Ctx : Type}

/-- An event object; only `type` and the `key` field of synthesised
`$delay` events are semantically relevant to the core. -/
structure Event where
  type : String
  key : Option String := none
deriving DecidableEq, Repr

/-- The explicit `type` field of a state node. -/
inductive NodeType where
  | atomic | compound | parallel | history
deriving DecidableEq, Repr

/-- The `history` field of a history node. -/
inductive HistoryFlavor where
  | shallow | deep
deriving DecidableEq, Repr

/-- A field that may hold one value or an array of values (the source
normalises both shapes). -/
inductive OneOrMany (α : Type) where
  | one (a : α)
  | many (l : List α)

/-- `ActionDefinition`: a direct function or a named reference. -/
inductive ActionDef (Ctx : Type) where
  | direct (f : Ctx → Event → Ctx × Option String)
  | ref (type : String)

/-- `GuardDefinition`: a direct predicate or a named reference. -/
inductive GuardDef (Ctx : Type) where
  | direct (f : Ctx → Event → Bool)
  | ref (type : String)

/-- A named delay implementation: a number or a callable. -/
inductive DelayImpl (Ctx : Type) where
  | num (n : Int)
  | fn (f : Ctx → Event → Int)

/-- `TransitionConfig`: optional target, optional action(s), optional
guard. -/
structure TransitionConfig (Ctx : Type) where
  target : Option String := none
  actions : Option (OneOrMany (ActionDef Ctx)) := none
  guard : Option (GuardDef Ctx) := none

/-- An element of an array-valued `TransitionDefinition`: a bare target
string or a config object. -/
inductive TDefItem (Ctx : Type) where
  | str (s : String)
  | cfg (c : TransitionConfig Ctx)

/-- `TransitionDefinition`: config, bare string, or array of either. -/
inductive TransitionDefinition (Ctx : Type) where
  | str (s : String)
  | cfg (c : TransitionConfig Ctx)
  | arr (items : List (TDefItem Ctx))

/-- `MachineImplementations`: named actions, guards and delays. -/
structure MachineImplementations (Ctx : Type) where
  actions : Option (List (String × (Ctx → Event → Ctx × Option String))) := none
  guards : Option (List (String × (Ctx → Event → Bool))) := none
  delays : Option (List (String × DelayImpl Ctx)) := none

/-- `StateNodeConfig` (src/core/types.ts); the `meta` and `tags` metadata
fields are omitted (never read by the core) and the `invoke` descriptor
list is abstracted to its presence, which is all
`actor.ts`/`transition.ts` branch on in the embedded fragment. -/
inductive Node (Ctx : Type) where
  | mk
    («on» : Option (List (String × TransitionDefinition Ctx)))
    (after : Option (List (String × TransitionDefinition Ctx)))
    (always : Option (TransitionDefinition Ctx))
    (entry : Option (OneOrMany (ActionDef Ctx)))
    (exit : Option (OneOrMany (ActionDef Ctx)))
    (invoke : Bool)
    (type : Option NodeType)
    (history : Option HistoryFlavor)
    (target : Option String)
    (initial : Option String)
    (states : Option (List (String × Node Ctx)))

/-- Projection: the `on` transition map. -/
def Node.«on» : Node Ctx → Option (List (String × TransitionDefinition Ctx))
  | .mk v _ _ _ _ _ _ _ _ _ _ => v

/-- Projection: the `after` delayed-transition map. -/
def Node.after : Node Ctx → Option (List (String × TransitionDefinition Ctx))
  | .mk _ v _ _ _ _ _ _ _ _ _ => v

/-- Projection: the eventless `always` transitions. -/
def Node.always : Node Ctx → Option (TransitionDefinition Ctx)
  | .mk _ _ v _ _ _ _ _ _ _ _ => v

/-- Projection: the entry actions. -/
def Node.entry : Node Ctx → Option (OneOrMany (ActionDef Ctx))
  | .mk _ _ _ v _ _ _ _ _ _ _ => v

/-- Projection: the exit actions. -/
def Node.exit : Node Ctx → Option (OneOrMany (ActionDef Ctx))
  | .mk _ _ _ _ v _ _ _ _ _ _ => v

/-- Projection: whether the node declares invocations. -/
def Node.invoke : Node Ctx → Bool
  | .mk _ _ _ _ _ v _ _ _ _ _ => v

/-- Projection: the explicit node type. -/
def Node.type : Node Ctx → Option NodeType
  | .mk _ _ _ _ _ _ v _ _ _ _ => v

/-- Projection: the history flavor. -/
def Node.history : Node Ctx → Option HistoryFlavor
  | .mk _ _ _ _ _ _ _ v _ _ _ => v

/-- Projection: the default target of a history node. -/
def Node.target : Node Ctx → Option String
  | .mk _ _ _ _ _ _ _ _ v _ _ => v

/-- Projection: the initial child name. -/
def Node.initial : Node Ctx → Option String
  | .mk _ _ _ _ _ _ _ _ _ v _ => v

/-- Projection: the children map. -/
def Node.states : Node Ctx → Option (List (String × Node Ctx))
  | .mk _ _ _ _ _ _ _ _ _ _ v => v

/-- `MachineConfig`: root id (ignored), initial state name, state map and
optional global `on` map.  The root `context` initialiser is irrelevant
here because the embedding passes contexts explicitly. -/
structure MachineConfig (Ctx : Type) where
  initial : String
  states : List (String × Node Ctx)
  «on» : Option (List (String × TransitionDefinition Ctx)) := none

/-- `Machine`: the validated configuration plus named implementations.
`provide` is modelled separately as `provideMachine`. -/
structure Machine (Ctx : Type) where
  config : MachineConfig Ctx
  initialState : String
  implementations : Option (MachineImplementations Ctx) := none

/-! ## Transition resolution (src/core/transition.ts) -/

/-- Sizes shrink through `jsLookup`, for termination of tree recursions. -/
theorem jsLookup_sizeOf_lt {α : Type} [SizeOf α] :
    ∀ {l : List (String × α)} {k : String} {v : α},
      jsLookup l k = some v → sizeOf v < sizeOf l := by
  intro l
  induction l with
  | nil => intro k v h; simp [jsLookup] at h
  | cons hd tl ih =>
    intro k v h
    obtain ⟨k', v'⟩ := hd
    simp only [jsLookup] at h
    split at h
    · cases h; simp; omega
    · have := ih h; simp; omega

/-- `resolveAction`: a direct callable, or a lookup of a symbolic reference
in the named implementations (a missing reference warns and is dropped). -/
def resolveAction (a : ActionDef Ctx)
    (implementations : Option (MachineImplementations Ctx)) :
    Option (Ctx → Event → Ctx × Option String) :=
  match a with
  | .direct f => some f
  | .ref t => (implementations.bind (·.actions)).bind (fun acts => jsLookup acts t)

/-- `resolveGuard`: as `resolveAction`, over the guard table. -/
def resolveGuard (g : GuardDef Ctx)
    (implementations : Option (MachineImplementations Ctx)) :
    Option (Ctx → Event → Bool) :=
  match g with
  | .direct f => some f
  | .ref t => (implementations.bind (·.guards)).bind (fun gs => jsLookup gs t)

/-- The loop body of `executeActions` over the normalised action list:
each resolved action sees the context as left by its predecessors (the
source mutates one shared context object), and a returned value is pushed
onto the effect list. -/
def execActionList : List (ActionDef Ctx) → Ctx → Event →
    Option (MachineImplementations Ctx) → Ctx × List String
  | [], ctx, _, _ => (ctx, [])
  | a :: rest, ctx, e, impls =>
    match resolveAction a impls with
    | none => execActionList rest ctx e impls
    | some f =>
      let (ctx', res) := f ctx e
      let (ctx'', effs) := execActionList rest ctx' e impls
      (ctx'', res.toList ++ effs)

/-- `executeActions`: normalise the one-or-many field and run the list. -/
def executeActions (actions : Option (OneOrMany (ActionDef Ctx))) (ctx : Ctx)
    (e : Event) (impls : Option (MachineImplementations Ctx)) :
    Ctx × List String :=
  match actions with
  | none => (ctx, [])
  | some (.one a) => execActionList [a] ctx e impls
  | some (.many l) => execActionList l ctx e impls

/-- `evaluateGuard`: absent or unresolvable guards pass. -/
def evaluateGuard (g : Option (GuardDef Ctx)) (ctx : Ctx) (e : Event)
    (impls : Option (MachineImplementations Ctx)) : Bool :=
  match g with
  | none => true
  | some gd =>
    match resolveGuard gd impls with
    | none => true
    | some f => f ctx e

/-- A bare string in a transition definition stands for `{target: s}`. -/
def normTDefItem : TDefItem Ctx → TransitionConfig Ctx
  | .str s => {target := some s}
  | .cfg c => c

/-- `normalizeTransitionDefinition`. -/
def normalizeTransitionDefinition :
    TransitionDefinition Ctx → List (TransitionConfig Ctx)
  | .arr items => items.map normTDefItem
  | .str s => [{target := some s}]
  | .cfg c => [c]

/-- `findValidTransition`: the first config whose guard evaluates true. -/
def findValidTransition (d : TransitionDefinition Ctx) (ctx : Ctx) (e : Event)
    (impls : Option (MachineImplementations Ctx)) :
    Option (TransitionConfig Ctx) :=
  (normalizeTransitionDefinition d).find? fun t =>
    evaluateGuard t.guard ctx e impls

/-- The descent loop of `getStateNodeByPath` below the first segment. -/
def getStateNodeInStates : Node Ctx → List String → Option (Node Ctx)
  | n, [] => some n
  | n, p :: rest =>
    match n.states with
    | some sts =>
      match jsLookup sts p with
      | some c => getStateNodeInStates c rest
      | none => none
    | none => none

/-- `getStateNodeByPath`. -/
def getStateNodeByPath (m : Machine Ctx) : List String → Option (Node Ctx)
  | [] => none
  | p0 :: rest =>
    match jsLookup m.config.states p0 with
    | some n => getStateNodeInStates n rest
    | none => none

/-- The collection loop of `getStateNodesInPath`, which stops (keeping what
was collected) at the first missing child. -/
def nodesInPathAux : Node Ctx → List String → List (Node Ctx)
  | _, [] => []
  | n, p :: rest =>
    match n.states with
    | some sts =>
      match jsLookup sts p with
      | some c => c :: nodesInPathAux c rest
      | none => []
    | none => []

/-- `getStateNodesInPath`: all nodes from root to leaf along a path. -/
def getStateNodesInPath (m : Machine Ctx) : List String → List (Node Ctx)
  | [] => []
  | p0 :: rest =>
    match jsLookup m.config.states p0 with
    | none => []
    | some n => n :: nodesInPathAux n rest

/-- The selection made at one level of `findTransitionInPath`: `always`
transitions first, then the `on` entry for the event type, then — for the
synthesised `$delay` event — the `after` entry for the event's key. -/
def tryLevel (m : Machine Ctx) (currentPath : List String) (e : Event)
    (ctx : Ctx) : Option (TransitionConfig Ctx) :=
  match getStateNodeByPath m currentPath with
  | none => none
  | some n =>
    let fromAlways :=
      match n.always with
      | some d => findValidTransition d ctx e m.implementations
      | none => none
    match fromAlways with
    | some t => some t
    | none =>
      let fromOn :=
        match n.«on» with
        | some onMap =>
          match jsLookup onMap e.type with
          | some d => findValidTransition d ctx e m.implementations
          | none => none
        | none => none
      match fromOn with
      | some t => some t
      | none =>
        if e.type = "$delay" then
          match n.after, e.key with
          | some afterMap, some k =>
            match jsLookup afterMap k with
            | some d => findValidTransition d ctx e m.implementations
            | none => none
          | _, _ => none
        else none

/-- The result of `findTransitionInPath`. -/
structure FoundTransition (Ctx : Type) where
  transition : TransitionConfig Ctx
  fromPath : List String

/-- The countdown loop of `findTransitionInPath`: try the prefix of length
`i`, then shorter ones. -/
def findTransitionInPathAux (m : Machine Ctx) (path : List String) (e : Event)
    (ctx : Ctx) : Nat → Option (FoundTransition Ctx)
  | 0 => none
  | i + 1 =>
    let currentPath := path.take (i + 1)
    match tryLevel m currentPath e ctx with
    | some t => some ⟨t, currentPath⟩
    | none => findTransitionInPathAux m path e ctx i

/-- `findTransitionInPath`: from the most specific (leaf) prefix up to the
root. -/
def findTransitionInPath (m : Machine Ctx) (path : List String) (e : Event)
    (ctx : Ctx) : Option (FoundTransition Ctx) :=
  findTransitionInPathAux m path e ctx path.length

/-- `resolveInitialState`: follow `initial` children while both `initial`
and `states` are present; a dangling `initial` stops after pushing it.  The
source's `while` loop terminates on every (finite, acyclic) configuration
tree; the fuel argument only bounds the chain length and every caller
passes it amply. -/
def resolveInitialState : Nat → Node Ctx → List String → List String
  | 0, _, parentPath => parentPath
  | fuel + 1, Node.mk _o _a _al _en _ex _inv _ty _h _tg (some init) (some sts),
    parentPath =>
    match jsLookup sts init with
    | some child => resolveInitialState fuel child (parentPath ++ [init])
    | none => parentPath ++ [init]
  | _ + 1, _, parentPath => parentPath

/-- The region expansion of `getInitialStateValue` for a parallel root. -/
def initialParallelEntries (fuel : Nat) :
    List (String × Node Ctx) → List (String × SV)
  | [] => []
  | (key, child) :: rest =>
    (key,
      match child.initial, child.states with
      | some _, some _ => pathToStateValue (resolveInitialState fuel child [])
      | _, _ => .leaf key) :: initialParallelEntries fuel rest

/-- `getInitialStateValue`. -/
def getInitialStateValue (fuel : Nat) (m : Machine Ctx) : SV :=
  match jsLookup m.config.states m.initialState with
  | none => .leaf m.initialState
  | some initialState =>
    match initialState.type, initialState.states with
    | some .parallel, some entries =>
      .obj [(m.initialState, .obj (initialParallelEntries fuel entries))]
    | _, _ =>
      pathToStateValue (resolveInitialState fuel initialState [m.initialState])

/-! ## Target resolution (src/core/transition.ts)

`recursiveResolve` and `resolveTarget` can genuinely diverge in the source
(a history default target may point back into itself), so the embedding
threads a fuel counter that is consumed on every hop through
`resolveTarget`; `none` marks fuel exhaustion and never occurs at the fuel
values used below.  Presence of a stored history snapshot is modelled as
key presence. -/

mutual

/-- `recursiveResolve`: expand a state node at `path` to a state value. -/
def recursiveResolve : Nat → Machine Ctx → Node Ctx → List String →
    List (String × SV) → Option SV
  | 0, _, _, _, _ => none
  | fuel + 1, m, n, path, hist =>
    if n.type = some .history then
      let parentPath := path.dropLast
      match jsLookup hist (jsJoinDot parentPath) with
      | some history =>
        let deep := n.history = some .deep
        some (wrapValueInPath parentPath (getHistoryValue history deep))
      | none =>
        match n.target with
        | some tgt =>
          let targetPath := jsSplitDot tgt
          let resolvedPath :=
            if jsHas m.config.states (targetPath.headD "") then targetPath
            else parentPath ++ targetPath
          resolveTarget fuel m resolvedPath hist
        | none =>
          match (getStateNodeByPath m parentPath).bind (fun p => p.initial) with
          | some ini => resolveTarget fuel m (parentPath ++ [ini]) hist
          | none => resolveRest fuel m n path hist
    else resolveRest fuel m n path hist

/-- The non-history remainder of `recursiveResolve`: atomic nodes become
their path, parallel nodes merge all regions, compound nodes follow
`initial`. -/
def resolveRest : Nat → Machine Ctx → Node Ctx → List String →
    List (String × SV) → Option SV
  | 0, _, _, _, _ => none
  | fuel + 1, m, n, path, hist =>
    match n.states with
    | none => some (pathToStateValue path)
    | some sts =>
      if sts.isEmpty then some (pathToStateValue path)
      else if n.type = some .parallel then
        (resolveRegions fuel m sts path hist).map (mergeStateValues fuel)
      else
        match n.initial with
        | some ini =>
          match jsLookup sts ini with
          | some initialNode =>
            recursiveResolve fuel m initialNode (path ++ [ini]) hist
          | none => some (pathToStateValue path)
        | none => some (pathToStateValue path)

/-- The region loop of the parallel clause of `recursiveResolve`. -/
def resolveRegions : Nat → Machine Ctx → List (String × Node Ctx) →
    List String → List (String × SV) → Option (List SV)
  | 0, _, _, _, _ => none
  | _ + 1, _, [], _, _ => some []
  | fuel + 1, m, (key, childNode) :: rest, path, hist =>
    match recursiveResolve fuel m childNode (path ++ [key]) hist with
    | none => none
    | some v =>
      match resolveRegions fuel m rest path hist with
      | none => none
      | some vs => some (v :: vs)

/-- `resolveTarget`: resolve the node at `targetPath` (a missing node is
assumed to name a leaf). -/
def resolveTarget : Nat → Machine Ctx → List String → List (String × SV) →
    Option SV
  | 0, _, _, _ => none
  | fuel + 1, m, targetPath, hist =>
    match getStateNodeByPath m targetPath with
    | none => some (pathToStateValue targetPath)
    | some n => recursiveResolve fuel m n targetPath hist

end

/-- The missing-region loop of `fillParallelStates`: regions of the node
that are absent from the value are resolved via `recursiveResolve` and the
part of the result below the region path is kept (skipped if it has
none). -/
def collectMissingRegions (fuel : Nat) (m : Machine Ctx) :
    List (String × Node Ctx) → List (String × SV) → List String →
    List (String × SV) → Option (List (String × SV))
  | [], _, _, _ => some []
  | (regionKey, regionNode) :: rest, currentEntries, pathKey, histv =>
    if jsHas currentEntries regionKey then
      collectMissingRegions fuel m rest currentEntries pathKey histv
    else
      match recursiveResolve fuel m regionNode (pathKey ++ [regionKey]) histv
        with
      | none => none
      | some resolved =>
        match collectMissingRegions fuel m rest currentEntries pathKey histv
          with
        | none => none
        | some rest' =>
          match getValueAtPath resolved (pathKey ++ [regionKey]) with
          | some rel => some ((regionKey, rel) :: rest')
          | none => some rest'

mutual

/-- `fillParallelStates` (src/core/transition.ts), arrays omitted: walk the
state value alongside the node tree and complete every parallel node whose
value is missing regions. -/
def fillParallelStates : Nat → Machine Ctx → List (String × Node Ctx) →
    SV → List String → List (String × SV) → Option SV
  | 0, _, _, _, _, _ => none
  | fuel + 1, m, nodes, value, path, histv =>
    match value with
    | .leaf s => some (.leaf s)
    | .obj entries =>
      (fillEntries fuel m nodes entries path histv).map .obj

/-- The per-key loop of `fillParallelStates`: a key without a matching node
is kept as is; a parallel node's object value is first augmented with its
missing regions, then every value is rewritten recursively against the
node's children. -/
def fillEntries : Nat → Machine Ctx → List (String × Node Ctx) →
    List (String × SV) → List String → List (String × SV) →
    Option (List (String × SV))
  | 0, _, _, _, _, _ => none
  | _ + 1, _, _, [], _, _ => some []
  | fuel + 1, m, nodes, (key, subValue) :: rest, path, histv =>
    match jsLookup nodes key with
    | none =>
      match fillEntries fuel m nodes rest path histv with
      | none => none
      | some rest' => some ((key, subValue) :: rest')
    | some node =>
      let augmented :=
        if node.type = some .parallel then
          match node.states, subValue with
          | some regionStates, .obj subEntries =>
            match collectMissingRegions fuel m regionStates subEntries
              (path ++ [key]) histv with
            | none => none
            | some missingRegions =>
              if missingRegions.isEmpty then some subValue
              else some (.obj (jsSpread subEntries missingRegions))
          | _, _ => some subValue
        else some subValue
      match augmented with
      | none => none
      | some v1 =>
        match fillParallelStates fuel m (node.states.getD []) v1
          (path ++ [key]) histv with
        | none => none
        | some v2 =>
          match fillEntries fuel m nodes rest path histv with
          | none => none
          | some rest' => some ((key, v2) :: rest')

end

/-- `completeStateValue`: autocomplete parallel regions over the whole
value. -/
def completeStateValue (fuel : Nat) (m : Machine Ctx) (stateValue : SV)
    (historyValue : List (String × SV)) : Option SV :=
  fillParallelStates fuel m m.config.states stateValue [] historyValue

/-! ## `computeTransition` (src/core/transition.ts)

The body of `computeTransition`'s transition branch is decomposed into
named definitions mirroring its local constructions (`fullTargetPath`,
`lcaIndex`, `affectedCurrentPaths`, `nodesToExit`, `nodesToEnter`, ...), so
that the theorems below can speak about the exit and entry sets.
`computeTransition` assembles exactly these pieces. -/

/-- The result record of `computeTransition`. -/
structure TransitionResult (Ctx : Type) where
  nextState : SV
  nextContext : Ctx
  changed : Bool
  effects : List String := []
  historyValue : Option (List (String × SV)) := none

/-- The scan of `computeTransition` over the active paths: the first path
(in document order) yielding a transition wins. -/
def scanPaths (m : Machine Ctx) : List (List String) → Event → Ctx →
    Option (FoundTransition Ctx)
  | [], _, _ => none
  | p :: rest, e, ctx =>
    match findTransitionInPath m p e ctx with
    | some r => some r
    | none => scanPaths m rest e ctx

/-- Explicit-target resolution: an absolute first segment keeps the split
path, otherwise the segments are appended to the source's parent path; no
target keeps the source path. -/
def resolveFullTargetPath (m : Machine Ctx) (t : TransitionConfig Ctx)
    (fromPath : List String) : List String :=
  match t.target with
  | none => fromPath
  | some tgt =>
    let targetSegments := jsSplitDot tgt
    if jsHas m.config.states (targetSegments.headD "") then targetSegments
    else fromPath.dropLast ++ targetSegments

/-- The agreement loop of the LCA computation. -/
def commonPrefixLen : List String → List String → Nat
  | a :: as_, b :: bs => if a = b then commonPrefixLen as_ bs + 1 else 0
  | _, _ => 0

/-- The LCA index: the common-prefix length, decremented when the target
equals or extends the source (the external self-transition adjustment). -/
def lcaIndexOf (fromPath fullTargetPath : List String) : Nat :=
  let i := commonPrefixLen fromPath fullTargetPath
  if i = fromPath.length then i - 1 else i

/-- The affectedness test on a path: at least `lcaIndex` long and agreeing
with `lcaPath` on the first `lcaIndex` positions. -/
def pathAffected (lcaIndex : Nat) (lcaPath : List String)
    (p : List String) : Bool :=
  decide (lcaIndex ≤ p.length) &&
    ((List.range lcaIndex).all fun i => p.getD i "" = lcaPath.getD i "")

/-- The prefixes `p.slice(0, i)` for `i` from `p.length` down to `stop`
inclusive. -/
def prefixesDescFrom (p : List String) (stop : Nat) : List (List String) :=
  (List.range (p.length + 1 - stop)).map fun j => p.take (p.length - j)

/-- The prefixes `p.slice(0, i)` for `i` from `start` up to `p.length`
inclusive. -/
def prefixesAscFrom (p : List String) (start : Nat) : List (List String) :=
  (List.range (p.length + 1 - start)).map fun j => p.take (start + j)

/-- Insertion-ordered deduplication, as iteration over a JS `Set`. -/
def addNewStrings (seen : List String) : List String → List String
  | [] => []
  | s :: rest =>
    if seen.contains s then addNewStrings seen rest
    else s :: addNewStrings (s :: seen) rest

/-- `exitedPathsSet`: all prefixes of affected paths down to the LCA
itself, joined, in insertion order. -/
def exitedPathStrings (affected : List (List String)) (lcaIndex : Nat) :
    List String :=
  addNewStrings []
    (affected.flatMap fun p => (prefixesDescFrom p lcaIndex).map jsJoinDot)

/-- The history-capture loop: every exited compound/parallel (or
child-bearing) node snapshots the sub-value at its path. -/
def captureHistoryAux (m : Machine Ctx) (currentState : SV) :
    List String → List (String × SV) → List (String × SV)
  | [], acc => acc
  | s :: rest, acc =>
    let path := jsSplitDot s
    let acc' :=
      match getStateNodeByPath m path with
      | some n =>
        if (n.type = some .compound || n.type = some .parallel ||
            (match n.states with
             | some sts => !sts.isEmpty
             | none => false) : Bool) then
          match getValueAtPath currentState path with
          | some val => jsSet acc s val
          | none => acc
        else acc
      | none => acc
    captureHistoryAux m currentState rest acc'

/-- The `visited`-guarded discovery of exit/entry nodes: first occurrence of
each joined path is kept (when its node exists), later ones dropped. -/
def collectNodesAux (m : Machine Ctx) :
    List String → List (List String) → List (List String × Node Ctx)
  | _, [] => []
  | visited, sub :: rest =>
    let s := jsJoinDot sub
    if visited.contains s then collectNodesAux m visited rest
    else
      match getStateNodeByPath m sub with
      | some n => (sub, n) :: collectNodesAux m (s :: visited) rest
      | none => collectNodesAux m (s :: visited) rest

/-- Stable insertion step: `x` goes after every element strictly before it
under the comparator order `le` and before the first tie or greater
element. -/
def stableInsert (le : α → α → Bool) (x : α) : List α → List α
  | [] => [x]
  | y :: ys =>
    if le y x && !le x y then y :: stableInsert le x ys
    else x :: y :: ys

/-- A stable sort modelling JS `Array.prototype.sort` (stable per the
ECMAScript spec): ascending under the comparator order `le`, ties kept in
original order. -/
def stableSort (le : α → α → Bool) : List α → List α
  | [] => []
  | x :: xs => stableInsert le x (stableSort le xs)

/-- `nodesToExit`: discovered prefixes of affected current paths strictly
below the LCA, stably sorted deepest first (the comparator
`(a,b) => b.path.length - a.path.length`). -/
def nodesToExitOf (m : Machine Ctx) (affected : List (List String))
    (lcaIndex : Nat) : List (List String × Node Ctx) :=
  stableSort (fun a b => b.1.length ≤ a.1.length)
    (collectNodesAux m []
      (affected.flatMap fun p => prefixesDescFrom p (lcaIndex + 1)))

/-- `nodesToEnter`: discovered prefixes of affected next paths strictly
below the LCA, stably sorted shallowest first. -/
def nodesToEnterOf (m : Machine Ctx) (affectedNext : List (List String))
    (lcaIndex : Nat) : List (List String × Node Ctx) :=
  stableSort (fun a b => a.1.length ≤ b.1.length)
    (collectNodesAux m []
      (affectedNext.flatMap fun p => prefixesAscFrom p (lcaIndex + 1)))

/-- Run one action list (exit or entry) per collected node, threading the
shared context and concatenating effects. -/
def runNodeActions (m : Machine Ctx)
    (proj : Node Ctx → Option (OneOrMany (ActionDef Ctx))) :
    List (List String × Node Ctx) → Ctx → Event → Ctx × List String
  | [], ctx, _ => (ctx, [])
  | (_, n) :: rest, ctx, e =>
    let (ctx', effs) := executeActions (proj n) ctx e m.implementations
    let (ctx'', effs') := runNodeActions m proj rest ctx' e
    (ctx'', effs ++ effs')

/-- As `runNodeActions` for a plain node list (the global-transition
branch). -/
def runPlainNodeActions (m : Machine Ctx)
    (proj : Node Ctx → Option (OneOrMany (ActionDef Ctx))) :
    List (Node Ctx) → Ctx → Event → Ctx × List String
  | [], ctx, _ => (ctx, [])
  | n :: rest, ctx, e =>
    let (ctx', effs) := executeActions (proj n) ctx e m.implementations
    let (ctx'', effs') := runPlainNodeActions m proj rest ctx' e
    (ctx'', effs ++ effs')

/-- The per-path exit sweep of the global-transition branch (each path's
nodes deepest first). -/
def runGlobalExits (m : Machine Ctx) :
    List (List String) → Ctx → Event → Ctx × List String
  | [], ctx, _ => (ctx, [])
  | p :: rest, ctx, e =>
    let (ctx', effs) :=
      runPlainNodeActions m Node.exit ((getStateNodesInPath m p).reverse) ctx e
    let (ctx'', effs') := runGlobalExits m rest ctx' e
    (ctx'', effs ++ effs')

/-- The no-transition result. -/
def unchangedResult (currentState : SV) (ctx : Ctx) : TransitionResult Ctx :=
  { nextState := currentState, nextContext := ctx, changed := false }

/-- The body of `computeTransition` once a transition has been selected:
resolve the target, capture history of exited subtrees, run
exit/transition/entry actions in order, merge the untouched regions back
in, and autocomplete parallel regions. -/
def applyTransition (fuel : Nat) (m : Machine Ctx) (currentState : SV)
    (currentPaths : List (List String)) (ctx : Ctx) (e : Event)
    (histv : List (String × SV)) (found : FoundTransition Ctx) :
    Option (TransitionResult Ctx) :=
  let fromPath := found.fromPath
  let fullTargetPath := resolveFullTargetPath m found.transition fromPath
  let lcaIndex := lcaIndexOf fromPath fullTargetPath
  match resolveTarget fuel m fullTargetPath histv with
  | none => none
  | some nextStateValue =>
    let nextPaths := stateValueToPaths nextStateValue
    let lcaPath := fromPath.take lcaIndex
    let affectedCurrentPaths :=
      currentPaths.filter (pathAffected lcaIndex lcaPath)
    let newHistoryValue :=
      captureHistoryAux m currentState
        (exitedPathStrings affectedCurrentPaths lcaIndex) histv
    let nodesToExit := nodesToExitOf m affectedCurrentPaths lcaIndex
    let (ctx1, exitEffects) := runNodeActions m Node.exit nodesToExit ctx e
    let (ctx2, transitionEffects) :=
      executeActions found.transition.actions ctx1 e m.implementations
    let affectedNextPaths := nextPaths.filter (pathAffected lcaIndex lcaPath)
    let nodesToEnter := nodesToEnterOf m affectedNextPaths lcaIndex
    let (ctx3, entryEffects) := runNodeActions m Node.entry nodesToEnter ctx2 e
    let unaffectedPaths :=
      currentPaths.filter fun p => !(pathAffected lcaIndex lcaPath p)
    let finalState :=
      mergeStateValues fuel (unaffectedPaths.map pathToStateValue ++
        [nextStateValue])
    match completeStateValue fuel m finalState newHistoryValue with
    | none => none
    | some completedState =>
      some { nextState := completedState
             nextContext := ctx3
             changed := true
             effects := exitEffects ++ transitionEffects ++ entryEffects
             historyValue := some newHistoryValue }

/-- `computeTransition`: scan active paths for a transition and apply it;
otherwise try the root-level global `on` map (which updates no history);
otherwise report no change. -/
def computeTransition (fuel : Nat) (m : Machine Ctx) (currentState : SV)
    (ctx : Ctx) (e : Event) (histv : List (String × SV)) :
    Option (TransitionResult Ctx) :=
  let currentPaths := stateValueToPaths currentState
  match scanPaths m currentPaths e ctx with
  | some found =>
    applyTransition fuel m currentState currentPaths ctx e histv found
  | none =>
    match m.config.«on» with
    | some onMap =>
      match jsLookup onMap e.type with
      | some d =>
        match findValidTransition d ctx e m.implementations with
        | some globalTransition =>
          match globalTransition.target with
          | some tgt =>
            let (ctx1, exitEffs) := runGlobalExits m currentPaths ctx e
            let (ctx2, transEffs) :=
              executeActions globalTransition.actions ctx1 e
                m.implementations
            let targetPath := jsSplitDot tgt
            let resolvedPath :=
              match getStateNodeByPath m targetPath with
              | some tn => resolveInitialState fuel tn targetPath
              | none => targetPath
            let (ctx3, entryEffs) :=
              runPlainNodeActions m Node.entry
                (getStateNodesInPath m resolvedPath) ctx2 e
            some { nextState := pathToStateValue resolvedPath
                   nextContext := ctx3
                   changed := true
                   effects := exitEffs ++ transEffs ++ entryEffs
                   historyValue := none }
          | none => some (unchangedResult currentState ctx)
        | none => some (unchangedResult currentState ctx)
      | none => some (unchangedResult currentState ctx)
    | none => some (unchangedResult currentState ctx)

/-! ## Actor runtime (src/core/actor.ts)

`createActor`'s mutable per-actor state is modelled as `AState`; timers and
child actors are outside the embedded fragment, but the **observer
notifications** they trigger are kept: in the source, `notify()` is invoked
from `start()` and from `startInvocations` (reached via
`handleInvokedActors` when an entered node declares invocations) — and from
nowhere else in `processEvent`.  `cloneContext` is identity on the
value-semantics contexts of the embedding. -/

/-- Mutable actor state: configuration value, context, history store, plus
the observable traces — `notifications` records each `notify()` call's
(state, context) snapshot and `log` the effects handed to
`processEffects`. -/
structure AState (Ctx : Type) where
  currentState : SV
  currentContext : Ctx
  historyValue : List (String × SV) := []
  notifications : List (SV × Ctx) := []
  log : List String := []

/-- JS `previousState !== currentState` on state values: strings compare by
value; any object produced by a changed transition is freshly allocated, so
an object on either side is reference-distinct. -/
def jsStrictNeq : SV → SV → Bool
  | .leaf a, .leaf b => a != b
  | _, _ => true

/-- The active node set as joined path strings (all prefixes of all active
paths), in insertion order. -/
def activePrefixStrings (v : SV) : List String :=
  addNewStrings []
    ((stateValueToPaths v).flatMap fun p => (prefixesAscFrom p 1).map jsJoinDot)

/-- The notifications produced by `handleInvokedActors`: one `notify()` per
newly-entered active node that declares invocations (`startInvocations`
ends with `notify()`), each showing the already-updated state and
context. -/
def handleInvokedNotifs (m : Machine Ctx) (previousState newState : SV)
    (ctx : Ctx) : List (SV × Ctx) :=
  let prevActive := activePrefixStrings previousState
  let nextActive := activePrefixStrings newState
  (nextActive.filter fun s => !prevActive.contains s).filterMap fun s =>
    match getStateNodeByPath m (jsSplitDot s) with
    | some n => if n.invoke then some (newState, ctx) else none
    | none => none

/-- Fold a `TransitionResult` into the actor state (the assignments at the
top of `processEvent`). -/
def applyResult (st : AState Ctx) (r : TransitionResult Ctx) : AState Ctx :=
  { st with
    currentState := r.nextState
    currentContext := r.nextContext
    historyValue :=
      match r.historyValue with
      | some h => h
      | none => st.historyValue }

/-- The loop of `processAlways`, with the remaining iteration budget of the
`steps < 100` guard as the recursion counter; returns the number of
(changed) iterations performed. -/
def processAlwaysAux (fuel : Nat) (m : Machine Ctx) :
    Nat → AState Ctx → Event → Option (AState Ctx × Nat)
  | 0, st, _ => some (st, 0)
  | r + 1, st, triggerEvent =>
    let transientEvent : Event :=
      { type := "$$always", key := triggerEvent.key }
    match computeTransition fuel m st.currentState st.currentContext
        transientEvent st.historyValue with
    | none => none
    | some res =>
      if res.changed then
        let st1 := applyResult st res
        let st2 := { st1 with
          notifications := st1.notifications ++
            handleInvokedNotifs m st.currentState st1.currentState
              st1.currentContext }
        let st3 := { st2 with log := st2.log ++ res.effects }
        (processAlwaysAux fuel m r st3 triggerEvent).map fun p =>
          (p.1, p.2 + 1)
      else some (st, 0)

/-- `processAlways`: at most 100 iterations; the boolean is the
`console.warn("Possible infinite loop in always transitions")` flag
(`steps >= 100`). -/
def processAlways (fuel : Nat) (m : Machine Ctx) (st : AState Ctx)
    (triggerEvent : Event) : Option (AState Ctx × Nat × Bool) :=
  match processAlwaysAux fuel m 100 st triggerEvent with
  | none => none
  | some (stf, n) => some (stf, n, decide (n ≥ 100))

/-- `processEvent`: one macro-step.  Note that no unconditional `notify()`
occurs here: observers are reached only through `handleInvokedActors` when
an entered node declares invocations. -/
def processEvent (fuel : Nat) (m : Machine Ctx) (st : AState Ctx)
    (e : Event) : Option (AState Ctx) :=
  match computeTransition fuel m st.currentState st.currentContext e
      st.historyValue with
  | none => none
  | some r =>
    let st1 := applyResult st r
    let st2 :=
      if r.changed && jsStrictNeq st.currentState st1.currentState then
        { st1 with
          notifications := st1.notifications ++
            handleInvokedNotifs m st.currentState st1.currentState
              st1.currentContext }
      else st1
    let st3 := { st2 with log := st2.log ++ r.effects }
    if r.changed then
      (processAlways fuel m st3 e).map fun p => p.1
    else some st3

/-! ## Machine creation and `provide` (src/core/machine.ts)

`provide` re-invokes `createMachine` on the *same* (already validated)
configuration object together with a fresh implementations object that has
exactly the keys `actions` and `guards` — each the spread of the base
machine's table under the overrides — and **no `delays` key**.  Validation
and invoke-transition registration re-run unchanged on the shared config
and are not re-modelled here. -/

/-- The implementations object built by `provide`. -/
def mergedImplementations (base : Option (MachineImplementations Ctx))
    (overrides : MachineImplementations Ctx) :
    MachineImplementations Ctx :=
  { actions := some (jsSpread ((base.bind (fun b => b.actions)).getD [])
      (overrides.actions.getD []))
    guards := some (jsSpread ((base.bind (fun b => b.guards)).getD [])
      (overrides.guards.getD []))
    delays := none }

/-- `machine.provide(overrides)`. -/
def provideMachine (m : Machine Ctx) (overrides : MachineImplementations Ctx) :
    Machine Ctx :=
  { config := m.config
    initialState := m.config.initial
    implementations := some (mergedImplementations m.implementations overrides) }

/-! ## Node builders

Convenience constructors used by the concrete machines below (the `Node`
inductive cannot be a `structure`, being recursive, so updates are spelled
out). -/

/-- The all-defaults state node `{}`. -/
def Node.empty : Node Ctx := .mk none none none none none false none none none none none

/-- Set the `on` map. -/
def Node.withOn (n : Node Ctx) (o : List (String × TransitionDefinition Ctx)) : Node Ctx :=
  match n with
  | .mk _ a al en ex inv ty h tg ini st => .mk (some o) a al en ex inv ty h tg ini st

/-- Set the `after` map. -/
def Node.withAfter (n : Node Ctx) (a : List (String × TransitionDefinition Ctx)) : Node Ctx :=
  match n with
  | .mk o _ al en ex inv ty h tg ini st => .mk o (some a) al en ex inv ty h tg ini st

/-- Set the `always` transitions. -/
def Node.withAlways (n : Node Ctx) (al : TransitionDefinition Ctx) : Node Ctx :=
  match n with
  | .mk o a _ en ex inv ty h tg ini st => .mk o a (some al) en ex inv ty h tg ini st

/-- Set the entry actions. -/
def Node.withEntry (n : Node Ctx) (en : OneOrMany (ActionDef Ctx)) : Node Ctx :=
  match n with
  | .mk o a al _ ex inv ty h tg ini st => .mk o a al (some en) ex inv ty h tg ini st

/-- Set the exit actions. -/
def Node.withExit (n : Node Ctx) (ex : OneOrMany (ActionDef Ctx)) : Node Ctx :=
  match n with
  | .mk o a al en _ inv ty h tg ini st => .mk o a al en (some ex) inv ty h tg ini st

/-- Mark the node as declaring invocations. -/
def Node.withInvoke (n : Node Ctx) : Node Ctx :=
  match n with
  | .mk o a al en ex _ ty h tg ini st => .mk o a al en ex true ty h tg ini st

/-- Set the node type. -/
def Node.withType (n : Node Ctx) (ty : NodeType) : Node Ctx :=
  match n with
  | .mk o a al en ex inv _ h tg ini st => .mk o a al en ex inv (some ty) h tg ini st

/-- Set the history flavor. -/
def Node.withHistory (n : Node Ctx) (h : HistoryFlavor) : Node Ctx :=
  match n with
  | .mk o a al en ex inv ty _ tg ini st => .mk o a al en ex inv ty (some h) tg ini st

/-- Set the default target. -/
def Node.withTarget (n : Node Ctx) (tg : String) : Node Ctx :=
  match n with
  | .mk o a al en ex inv ty h _ ini st => .mk o a al en ex inv ty h (some tg) ini st

/-- Set the initial child name. -/
def Node.withInitial (n : Node Ctx) (ini : String) : Node Ctx :=
  match n with
  | .mk o a al en ex inv ty h tg _ st => .mk o a al en ex inv ty h tg (some ini) st

/-- Set the children map. -/
def Node.withStates (n : Node Ctx) (st : List (String × Node Ctx)) : Node Ctx :=
  match n with
  | .mk o a al en ex inv ty h tg ini _ => .mk o a al en ex inv ty h tg ini (some st)

/-! ## Helper lemmas -/

/-- If no active path yields a transition, the scan yields none. -/
theorem scanPaths_eq_none {m : Machine Ctx} {e : Event} {ctx : Ctx} :
    ∀ {paths : List (List String)},
      (∀ p ∈ paths, findTransitionInPath m p e ctx = none) →
      scanPaths m paths e ctx = none
  | [], _ => rfl
  | p :: rest, h => by
    have hp := h p (List.mem_cons_self _ _)
    have ih : scanPaths m rest e ctx = none :=
      scanPaths_eq_none (fun q hq => h q (List.mem_cons_of_mem _ hq))
    simp only [scanPaths, hp, ih]

/-! ## C6 — unhandled events are dropped silently -/

/-- A machine used by several witnesses: the two-state toggle. -/
def toggleStateNode (tgt : String) : Node Unit :=
  Node.empty.withOn [("TOGGLE", .cfg {target := some tgt})]

/-- The toggle machine of the spec's scenario 1. -/
def toggleMachine : Machine Unit :=
  { config :=
      { initial := "inactive",
        states := [("inactive", toggleStateNode "active"),
                   ("active", toggleStateNode "inactive")] },
    initialState := "inactive" }

/-- The started toggle actor's state. -/
def toggleStart : AState Unit :=
  { currentState := .leaf "inactive", currentContext := () }

/-- C6: if no active node's `on` map (nor `always`/`after`) yields a
descriptor with a true guard for the event and the root-level `on` map
yields none either, processing the event leaves the actor state — value,
context, history, notifications and effect log — exactly unchanged, and no
error is produced (`processEvent` succeeds). -/
theorem c6_unhandled_event_is_dropped
    (fuel : Nat) (m : Machine Ctx) (st : AState Ctx) (e : Event)
    (h1 : ∀ p ∈ stateValueToPaths st.currentState,
      findTransitionInPath m p e st.currentContext = none)
    (h2 : (m.config.«on».bind fun om => jsLookup om e.type).bind
      (fun d => findValidTransition d st.currentContext e m.implementations) =
      none) :
    processEvent fuel m st e = some st := by
  have hscan : scanPaths m (stateValueToPaths st.currentState) e
      st.currentContext = none := scanPaths_eq_none h1
  cases st with
  | mk cs cc hv nt lg =>
    simp only [processEvent, computeTransition, hscan]
    cases hON : m.config.«on» with
    | none =>
      simp [unchangedResult, applyResult, jsStrictNeq]
    | some om =>
      simp only [hON, Option.some_bind] at h2
      cases hLK : jsLookup om e.type with
      | none =>
        simp [hLK, unchangedResult, applyResult]
      | some d =>
        rw [hLK] at h2
        simp only [Option.some_bind] at h2
        simp [hLK, h2, unchangedResult, applyResult]

/-- C6 witness: the toggle actor drops an unknown event unchanged. -/
theorem c6_unhandled_event_is_dropped_witness :
    processEvent 10 toggleMachine toggleStart ⟨"NOPE", none⟩ =
      some toggleStart := by
  apply c6_unhandled_event_is_dropped
  · intro p hp
    simp only [toggleStart, stateValueToPaths, List.mem_singleton] at hp
    subst hp
    rfl
  · rfl

/-! ## C10 — `always` transitions are considered before `on` handlers -/

/-- At the level where `findTransitionInPathAux` finds its transition, a
valid `always` transition wins. -/
theorem findTransitionInPathAux_always_first
    {m : Machine Ctx} {path : List String} {e : Event} {ctx : Ctx} :
    ∀ {i : Nat} {r : FoundTransition Ctx},
      findTransitionInPathAux m path e ctx i = some r →
      ∀ {n : Node Ctx} {d : TransitionDefinition Ctx}
        {t' : TransitionConfig Ctx},
        getStateNodeByPath m r.fromPath = some n →
        n.always = some d →
        findValidTransition d ctx e m.implementations = some t' →
        r.transition = t'
  | 0, r => by intro h; simp [findTransitionInPathAux] at h
  | i + 1, r => by
    intro h n d t' hn ha hv
    simp only [findTransitionInPathAux] at h
    cases htl : tryLevel m (path.take (i + 1)) e ctx with
    | some t =>
      rw [htl] at h
      cases h
      simp only [tryLevel, hn, ha, hv] at htl
      cases htl
      rfl
    | none =>
      rw [htl] at h
      exact findTransitionInPathAux_always_first h hn ha hv

/-- C10: whatever the incoming event's type, if `findTransitionInPath`
selects a transition at a node that has an `always` transition with a true
guard, the selected transition is that `always` transition (so eventless
transitions fire during ordinary event processing as well). -/
theorem c10_always_before_on
    (m : Machine Ctx) (path : List String) (e : Event) (ctx : Ctx)
    (r : FoundTransition Ctx) (n : Node Ctx)
    (d : TransitionDefinition Ctx) (t' : TransitionConfig Ctx)
    (hfind : findTransitionInPath m path e ctx = some r)
    (hnode : getStateNodeByPath m r.fromPath = some n)
    (halways : n.always = some d)
    (hvalid : findValidTransition d ctx e m.implementations = some t') :
    r.transition = t' :=
  findTransitionInPathAux_always_first hfind hnode halways hvalid

/-- A node with both an `always` transition and a `PING` handler. -/
def alwaysPreferenceMachine : Machine Unit :=
  { config :=
      { initial := "s",
        states := [("s", ((Node.empty.withAlways (.cfg {target := some "t"})).withOn
                     [("PING", .cfg {target := some "u"})])),
                   ("t", Node.empty), ("u", Node.empty)] },
    initialState := "s" }

/-- C10 witness: sending the ordinary `PING` event to the node above
selects the eventless transition (target `t`), not the `PING` handler. -/
theorem c10_always_before_on_witness :
    ∃ r : FoundTransition Unit,
      findTransitionInPath alwaysPreferenceMachine ["s"] ⟨"PING", none⟩ () =
        some r ∧
      r.transition = {target := some "t"} :=
  ⟨⟨{target := some "t"}, ["s"]⟩, rfl,
    c10_always_before_on alwaysPreferenceMachine ["s"] ⟨"PING", none⟩ ()
      ⟨{target := some "t"}, ["s"]⟩ _ _ _ rfl rfl rfl rfl⟩

/-! ## C1 — one event, several enabled parallel regions -/

/-- A region `{initial: idle, states: {idle: {on: {TRIGGER: {target: done,
actions: marker}}}, done: {}}}`. -/
def triggerRegion (marker : String) : Node Unit :=
  ((Node.empty.withInitial "idle").withStates
    [("idle", Node.empty.withOn
      [("TRIGGER", .cfg
        { target := some "done",
          actions := some (.one (.direct fun c _ => (c, some marker))) })]),
     ("done", Node.empty)])

/-- Three parallel regions, each with an enabled `TRIGGER` transition to
`done` whose action reports the region's name. -/
def parallelTriggerMachine : Machine Unit :=
  { config :=
      { initial := "active",
        states := [("active",
          ((Node.empty.withType .parallel).withStates
            [("first", triggerRegion "first"),
             ("second", triggerRegion "second"),
             ("third", triggerRegion "third")]))] },
    initialState := "active" }

/-- The started configuration: all three regions in `idle`. -/
def parallelTriggerStart : AState Unit :=
  { currentState := getInitialStateValue 100 parallelTriggerMachine,
    currentContext := () }

/-- C1 (evaluation at the claim's own scenario): one `TRIGGER` macro-step
moves only the **first** region (in document order) to `done` — `second`
and `third` remain `idle` — and only the first region's transition action
runs.  `computeTransition` returns upon the first active path that yields a
transition, and the eventless closure re-enters it only with the
`$$always` event type, which matches no `TRIGGER` handler; the claim (and
the repository's own test
"Parallel: Actions execute in document order across regions") expects all
three regions in `done` with three action invocations. -/
theorem c1_single_region_takes_the_event :
    (processEvent 20 parallelTriggerMachine parallelTriggerStart
        ⟨"TRIGGER", none⟩).map (fun s => (s.currentState, s.log)) =
      some (.obj [("active", .obj
            [("second", .leaf "idle"), ("third", .leaf "idle"),
             ("first", .leaf "done")])],
        ["first"]) := by
  rfl

/-! ## C2 — observer notification on `send` -/

/-- C2 (evaluation): a `send` that causes a transition completes the
macro-step — the toggle moves from `inactive` to `active` — with **zero**
`notify()` calls: `processEvent` contains no notification path except
`startInvocations` (reached only when an entered node declares
invocations), while the claim (and the repository's `ARCHITECTURE.md` flow
and `examples/toggle.ts`) expects every subscribed observer to see the
post-step snapshot before `send` returns. -/
theorem c2_send_notifies_no_observer :
    (processEvent 10 toggleMachine toggleStart ⟨"TOGGLE", none⟩).map
        (fun s => (s.currentState, s.notifications)) =
      some (.leaf "active", ([] : List (SV × Unit))) := by
  rfl

/-! ## C5 — shallow history projection -/

/-- `parent` holds a compound child `b` (initial `c1`) and a shallow
history node; `EXIT`/`RETURN` leave and re-enter via `parent.hist`. -/
def shallowHistoryMachine : Machine Unit :=
  { config :=
      { initial := "parent",
        states :=
          [("parent",
            (((Node.empty.withInitial "b").withStates
              [("b", ((Node.empty.withInitial "c1").withStates
                  [("c1", Node.empty.withOn
                      [("NEXT", .cfg {target := some "c2"})]),
                   ("c2", Node.empty)])),
               ("hist", Node.empty.withType .history)]).withOn
              [("EXIT", .cfg {target := some "outside"})])),
           ("outside", Node.empty.withOn
              [("RETURN", .cfg {target := some "parent.hist"})])] },
    initialState := "parent" }

/-- The started configuration `{parent: {b: c1}}`. -/
def shallowHistoryStart : AState Unit :=
  { currentState := getInitialStateValue 100 shallowHistoryMachine,
    currentContext := () }

/-- After `NEXT`: `{parent: {b: c2}}`, with `{parent.b ↦ c1}` recorded. -/
def histAfterNext : AState Unit :=
  { currentState := .obj [("parent", .obj [("b", .leaf "c2")])],
    currentContext := (),
    historyValue := [("parent.b", .leaf "c1")] }

/-- After `EXIT`: `outside`, with the snapshot `{b: c2}` stored for
`parent`. -/
def histAfterExit : AState Unit :=
  { currentState := .leaf "outside",
    currentContext := (),
    historyValue := [("parent.b", .leaf "c2"),
                     ("parent", .obj [("b", .leaf "c2")])] }

/-- After `RETURN` through the shallow history node: `{parent: b}`. -/
def histAfterReturn : AState Unit :=
  { currentState := .obj [("parent", .leaf "b")],
    currentContext := (),
    historyValue := [("parent.b", .leaf "c2"),
                     ("parent", .obj [("b", .leaf "c2")])] }

/-- C5 (evaluation at the failing input): with the stored snapshot
`{b: c2}` for `parent`, shallow resolution of `parent.hist` produces
`{parent: b}` — the compound child `b` is restored **as a leaf** and
nowhere re-resolved via its `initial` — and the full `NEXT, EXIT, RETURN`
actor scenario ends in `{parent: b}` instead of the claim's
`{parent: {b: c1}}` (the spec's §4.4 and R-2, and invariant I-1, require
the kept child to be re-expanded via `initial`). -/
theorem c5_shallow_history_keeps_compound_child_unexpanded :
    (resolveTarget 30 shallowHistoryMachine ["parent", "hist"]
        [("parent", .obj [("b", .leaf "c2")])] =
      some (.obj [("parent", .leaf "b")])) ∧
    processEvent 30 shallowHistoryMachine shallowHistoryStart ⟨"NEXT", none⟩ =
      some histAfterNext ∧
    processEvent 30 shallowHistoryMachine histAfterNext ⟨"EXIT", none⟩ =
      some histAfterExit ∧
    processEvent 30 shallowHistoryMachine histAfterExit ⟨"RETURN", none⟩ =
      some histAfterReturn := by
  exact ⟨rfl, rfl, rfl, rfl⟩

/-! ## C9 — `provide` merges actions and guards but drops delays -/

/-- `jsLookup` after `jsSet`. -/
theorem jsLookup_jsSet {α : Type} :
    ∀ (l : List (String × α)) (k k' : String) (v : α),
      jsLookup (jsSet l k v) k' = if k = k' then some v else jsLookup l k'
  | [], k, k', v => by
    by_cases h : k = k' <;> simp [jsSet, jsLookup, h]
  | (ka, va) :: tl, k, k', v => by
    by_cases h1 : ka = k
    · subst h1
      simp only [jsSet, if_pos rfl, jsLookup]
      by_cases h2 : ka = k'
      · simp [h2]
      · simp [h2]
    · simp only [jsSet, if_neg h1, jsLookup]
      by_cases h2 : ka = k'
      · have hk : ¬ k = k' := fun hk => h1 (h2.trans hk.symm)
        simp [h2, hk]
      · simp only [if_neg h2]
        exact jsLookup_jsSet tl k k' v

/-- A key absent from the entries looks up to nothing. -/
theorem jsLookup_eq_none_of_not_mem {α : Type} :
    ∀ {l : List (String × α)} {k : String},
      k ∉ l.map Prod.fst → jsLookup l k = none
  | [], _, _ => rfl
  | (ka, va) :: tl, k, h => by
    have h1 : ¬ ka = k := fun he => h (by simp [he])
    have h2 : k ∉ tl.map Prod.fst := fun hm => h (by simp [hm])
    simp only [jsLookup, if_neg h1]
    exact jsLookup_eq_none_of_not_mem h2

/-- Left-biased choice of optionals (override-then-base lookup). -/
def firstSome {α : Type} (x y : Option α) : Option α :=
  match x with
  | some v => some v
  | none => y

/-- Lookup through an object spread: for a duplicate-free right object the
override wins and the base fills the rest. -/
theorem jsLookup_jsSpread {α : Type} (b : List (String × α))
    (hnodup : (b.map Prod.fst).Nodup) (a : List (String × α)) (k : String) :
    jsLookup (jsSpread a b) k = firstSome (jsLookup b k) (jsLookup a k) := by
  induction b generalizing a with
  | nil => simp [jsSpread, jsLookup, firstSome]
  | cons hd tl ih =>
    obtain ⟨kb, vb⟩ := hd
    simp only [List.map_cons, List.nodup_cons] at hnodup
    have step : jsSpread a ((kb, vb) :: tl) = jsSpread (jsSet a kb vb) tl := rfl
    rw [step, ih hnodup.2]
    by_cases h : kb = k
    · subst h
      have hnone : jsLookup tl kb = none :=
        jsLookup_eq_none_of_not_mem hnodup.1
      simp [jsLookup, hnone, jsLookup_jsSet, firstSome]
    · simp [jsLookup, h, jsLookup_jsSet, firstSome]

/-- C9 (amended): `provide` returns a machine sharing the configuration
tree, whose named **actions** and **guards** are the base machine's tables
overlaid with the overrides (override wins on key clashes), but whose
implementations carry **no** `delays` table: the object literal built by
`provide` has only `actions` and `guards` keys, so every named delay of the
base machine is dropped. -/
theorem c9_provide_merges_actions_guards_drops_delays
    (m : Machine Ctx) (o : MachineImplementations Ctx) :
    (provideMachine m o).config = m.config ∧
    (provideMachine m o).implementations.bind (fun i => i.delays) = none ∧
    (((o.actions.getD []).map Prod.fst).Nodup → ∀ k,
      jsLookup (((provideMachine m o).implementations.bind
          (fun i => i.actions)).getD []) k =
        firstSome (jsLookup (o.actions.getD []) k)
          (jsLookup ((m.implementations.bind (fun i => i.actions)).getD [])
            k)) ∧
    (((o.guards.getD []).map Prod.fst).Nodup → ∀ k,
      jsLookup (((provideMachine m o).implementations.bind
          (fun i => i.guards)).getD []) k =
        firstSome (jsLookup (o.guards.getD []) k)
          (jsLookup ((m.implementations.bind (fun i => i.guards)).getD [])
            k)) := by
  refine ⟨rfl, rfl, fun hn k => ?_, fun hn k => ?_⟩
  · simp only [provideMachine, mergedImplementations, Option.some_bind,
      Option.getD_some]
    exact jsLookup_jsSpread (o.actions.getD []) hn
      ((m.implementations.bind (fun i => i.actions)).getD []) k
  · simp only [provideMachine, mergedImplementations, Option.some_bind,
      Option.getD_some]
    exact jsLookup_jsSpread (o.guards.getD []) hn
      ((m.implementations.bind (fun i => i.guards)).getD []) k

/-- A machine carrying a named delay implementation. -/
def delayImplMachine : Machine Unit :=
  { config := { initial := "a", states := [("a", Node.empty)] },
    initialState := "a",
    implementations := some { delays := some [("slow", .num 5)] } }

/-- An override table with one named action. -/
def overrideImpls : MachineImplementations Unit :=
  { actions := some [("greet", fun c _ => (c, some "hola"))] }

/-- C9 counterexample to the claim as stated: the named delay `slow` is
present on the base machine but the provided machine's implementations
have no delay table at all. -/
theorem c9_counterexample_delay_dropped :
    jsHas ((delayImplMachine.implementations.bind
        (fun i => i.delays)).getD []) "slow" = true ∧
    (provideMachine delayImplMachine overrideImpls).implementations.bind
        (fun i => i.delays) = none := by
  exact ⟨rfl, rfl⟩

/-- C9 witness: the amended theorem at the concrete machine — the override
action is found, the base delay table is gone. -/
theorem c9_provide_witness :
    (provideMachine delayImplMachine overrideImpls).config =
        delayImplMachine.config ∧
      (provideMachine delayImplMachine overrideImpls).implementations.bind
        (fun i => i.delays) = none :=
  ⟨(c9_provide_merges_actions_guards_drops_delays delayImplMachine
      overrideImpls).1,
   (c9_provide_merges_actions_guards_drops_delays delayImplMachine
      overrideImpls).2.1⟩

/-! ## C7 — `matches` queries -/

/-- Elementwise `getD` agreement on the first `tp.length` positions is
exactly the prefix relation, under the length bound. -/
theorem prefix_iff_forall_getD :
    ∀ (tp cp : List String), tp.length ≤ cp.length →
      ((∀ i, i < tp.length → cp.getD i "" = tp.getD i "") ↔ tp <+: cp)
  | [], cp, _ => by simp
  | t :: ts, [], h => by simp at h
  | t :: ts, c :: cs, h => by
    have hlen : ts.length ≤ cs.length := by simpa using h
    have ih := prefix_iff_forall_getD ts cs hlen
    rw [List.cons_prefix_cons]
    constructor
    · intro hall
      have h0 := hall 0 (by simp)
      simp only [List.getD_cons_zero] at h0
      refine ⟨h0.symm, ih.mp ?_⟩
      intro i hi
      have hstep := hall (i + 1) (by simpa using hi)
      simpa only [List.getD_cons_succ] using hstep
    · rintro ⟨he, hpre⟩ i hi
      cases i with
      | zero => simpa [List.getD_cons_zero] using he.symm
      | succ j =>
        simp only [List.getD_cons_succ]
        exact ih.mpr hpre j (by simpa using hi)

/-- `pathsMatch` decides the prefix relation. -/
theorem pathsMatch_eq_true_iff (cp tp : List String) :
    pathsMatch cp tp = true ↔ tp <+: cp := by
  unfold pathsMatch
  by_cases h : tp.length > cp.length
  · simp only [if_pos h]
    constructor
    · intro hh; simp at hh
    · intro hpre
      exact absurd (List.IsPrefix.length_le hpre) (by omega)
  · simp only [if_neg h, List.all_eq_true, List.mem_range, decide_eq_true_eq]
    exact prefix_iff_forall_getD tp cp (by omega)

/-- C7 (amended): `matches` is prefix-based for dotted strings and for
record queries, but a single-segment string query succeeds whenever the
name occurs as **any** segment of some active path (`path.includes`), not
only as the first segment. -/
theorem c7_matches_characterisation (v : SV) :
    (∀ t : String, containsDot t = false →
      (matchesStateValue v (.leaf t) = true ↔
        ∃ p ∈ stateValueToPaths v, t ∈ p)) ∧
    (∀ t : String, containsDot t = true →
      (matchesStateValue v (.leaf t) = true ↔
        ∃ p ∈ stateValueToPaths v, jsSplitDot t <+: p)) ∧
    (∀ entries : List (String × SV),
      matchesStateValue v (.obj entries) = true ↔
        ∀ tp ∈ stateValueToPaths (SV.obj entries),
          ∃ cp ∈ stateValueToPaths v, tp <+: cp) := by
  refine ⟨fun t ht => ?_, fun t ht => ?_, fun entries => ?_⟩
  · simp [matchesStateValue, ht, List.any_eq_true, List.contains, List.elem_iff]
  · simp [matchesStateValue, ht, List.any_eq_true, pathsMatch_eq_true_iff]
  · simp [matchesStateValue, List.all_eq_true, List.any_eq_true,
      pathsMatch_eq_true_iff]

/-- C7 counterexample to the claim as stated: the single-segment query
`child` matches the value `{parent: child}` although no active path has
`child` as its first segment. -/
theorem c7_counterexample_deep_name_matches :
    matchesStateValue (.obj [("parent", .leaf "child")]) (.leaf "child") =
        true ∧
      ¬ ∃ p ∈ stateValueToPaths (SV.obj [("parent", .leaf "child")]),
          ["child"] <+: p := by
  constructor
  · rfl
  · decide

/-- C7 witness: the single-segment clause of the characterisation at the
counterexample's value. -/
theorem c7_matches_characterisation_witness :
    matchesStateValue (SV.obj [("parent", .leaf "child")]) (.leaf "child") =
        true ↔
      ∃ p ∈ stateValueToPaths (SV.obj [("parent", .leaf "child")]),
        "child" ∈ p :=
  (c7_matches_characterisation (SV.obj [("parent", .leaf "child")])).1
    "child" (by rfl)

/-! ## C8 — the eventless closure terminates and caps at 100 -/

/-- The closure loop performs at most its iteration budget. -/
theorem processAlwaysAux_le (fuel : Nat) (m : Machine Ctx) (e : Event) :
    ∀ (r : Nat) (st stf : AState Ctx) (n : Nat),
      processAlwaysAux fuel m r st e = some (stf, n) → n ≤ r := by
  intro r
  induction r with
  | zero =>
    intro st stf n h
    simp only [processAlwaysAux] at h
    cases h
    omega
  | succ r ih =>
    intro st stf n h
    simp only [processAlwaysAux] at h
    split at h
    · cases h
    · split at h
      · rw [Option.map_eq_some'] at h
        obtain ⟨⟨stf', n'⟩, hrec, hfn⟩ := h
        have := ih _ _ _ hrec
        cases hfn
        omega
      · cases h
        omega

/-- When the loop stops below the cap, the final configuration is
quiescent: the `$$always` transition computation at it reports no
change. -/
theorem processAlwaysAux_quiescent (fuel : Nat) (m : Machine Ctx)
    (e : Event) :
    ∀ (r : Nat) (st stf : AState Ctx) (n : Nat),
      processAlwaysAux fuel m r st e = some (stf, n) → n < r →
      ∃ res, computeTransition fuel m stf.currentState stf.currentContext
          { type := "$$always", key := e.key } stf.historyValue =
          some res ∧ res.changed = false := by
  intro r
  induction r with
  | zero =>
    intro st stf n h hlt
    omega
  | succ r ih =>
    intro st stf n h hlt
    simp only [processAlwaysAux] at h
    split at h
    · cases h
    · rename_i res heq
      split at h
      · rw [Option.map_eq_some'] at h
        obtain ⟨⟨stf', n'⟩, hrec, hfn⟩ := h
        cases hfn
        exact ih _ _ _ hrec (by omega)
      · rename_i hch
        cases h
        exact ⟨res, heq, by simpa using hch⟩

/-- C8: the eventless closure always terminates — it repeats the
`$$always` transition computation only while a transition fires, performs
at most 100 iterations, warns exactly when the cap is reached, and when it
stops below the cap the remaining configuration is quiescent (so the last
consistent configuration is kept even for machines whose `always`
transitions cycle forever). -/
theorem c8_eventless_closure_caps_at_100
    (fuel : Nat) (m : Machine Ctx) (st : AState Ctx) (e : Event)
    (stf : AState Ctx) (n : Nat) (w : Bool)
    (h : processAlways fuel m st e = some (stf, n, w)) :
    n ≤ 100 ∧ (w = true ↔ n = 100) ∧
      (n < 100 →
        ∃ res, computeTransition fuel m stf.currentState stf.currentContext
            { type := "$$always", key := e.key } stf.historyValue =
            some res ∧ res.changed = false) := by
  unfold processAlways at h
  cases haux : processAlwaysAux fuel m 100 st e with
  | none => rw [haux] at h; cases h
  | some p =>
    obtain ⟨stf', n'⟩ := p
    rw [haux] at h
    simp only [Option.some.injEq, Prod.mk.injEq] at h
    obtain ⟨h1, h2, h3⟩ := h
    subst h1
    subst h2
    subst h3
    have hle := processAlwaysAux_le fuel m e 100 st stf' n' haux
    refine ⟨hle, ?_, fun hlt =>
      processAlwaysAux_quiescent fuel m e 100 st stf' n' haux hlt⟩
    simp only [decide_eq_true_eq]
    omega

/-- Two states whose `always` transitions cycle forever. -/
def cyclicAlwaysMachine : Machine Unit :=
  { config :=
      { initial := "a",
        states := [("a", Node.empty.withAlways (.cfg {target := some "b"})),
                   ("b", Node.empty.withAlways (.cfg {target := some "a"}))] },
    initialState := "a" }

/-- The started cyclic actor, in `a`. -/
def cyclicStart : AState Unit :=
  { currentState := .leaf "a", currentContext := () }

/-- The cyclic actor in `b`. -/
def cyclicStateB : AState Unit :=
  { currentState := .leaf "b", currentContext := () }

/-- One closure iteration from `a` lands in `b`. -/
theorem cyclicStepA (r : Nat) :
    processAlwaysAux 10 cyclicAlwaysMachine (r + 1) cyclicStart
        ⟨"$init", none⟩ =
      (processAlwaysAux 10 cyclicAlwaysMachine r cyclicStateB
          ⟨"$init", none⟩).map (fun p => (p.1, p.2 + 1)) := rfl

/-- One closure iteration from `b` lands back in `a`. -/
theorem cyclicStepB (r : Nat) :
    processAlwaysAux 10 cyclicAlwaysMachine (r + 1) cyclicStateB
        ⟨"$init", none⟩ =
      (processAlwaysAux 10 cyclicAlwaysMachine r cyclicStart
          ⟨"$init", none⟩).map (fun p => (p.1, p.2 + 1)) := rfl

/-- The cycle runs through any even iteration budget. -/
theorem cyclicCycle :
    ∀ k : Nat, processAlwaysAux 10 cyclicAlwaysMachine (2 * k) cyclicStart
        ⟨"$init", none⟩ = some (cyclicStart, 2 * k) := by
  intro k
  induction k with
  | zero => rfl
  | succ k ih =>
    have h2 : 2 * (k + 1) = (2 * k + 1) + 1 := by omega
    rw [h2, cyclicStepA (2 * k + 1), cyclicStepB (2 * k), ih]
    rfl

/-- The closure on the cyclic machine stops exactly at the cap with the
warning raised and the last consistent configuration kept. -/
theorem cyclicCapped :
    processAlways 10 cyclicAlwaysMachine cyclicStart ⟨"$init", none⟩ =
      some (cyclicStart, 100, true) := by
  have h := cyclicCycle 50
  norm_num at h
  simp [processAlways, h]

/-- C8 witness: the cap theorem applied to the forever-cycling machine,
which runs exactly 100 iterations and warns. -/
theorem c8_eventless_closure_caps_at_100_witness :
    (100 : Nat) ≤ 100 ∧ ((true = true) ↔ (100 : Nat) = 100) ∧
      ((100 : Nat) < 100 →
        ∃ res, computeTransition 10 cyclicAlwaysMachine
            cyclicStart.currentState cyclicStart.currentContext
            { type := "$$always", key := none } cyclicStart.historyValue =
            some res ∧ res.changed = false) :=
  c8_eventless_closure_caps_at_100 10 cyclicAlwaysMachine cyclicStart
    ⟨"$init", none⟩ cyclicStart 100 true cyclicCapped

/-! ## C3 — action order of a single transition

`computeTransition` sorts the exit set with the comparator
`(a, b) => b.path.length - a.path.length` and the entry set with
`(a, b) => a.path.length - b.path.length` — **non-strict** orders: a
parallel LCA contributes several exited (or entered) paths of equal
length, kept in discovery order by the stable sort. -/

/-- Membership in a stable insertion. -/
theorem mem_stableInsert (le : α → α → Bool) (x : α) :
    ∀ (l : List α) (a : α), a ∈ stableInsert le x l ↔ a = x ∨ a ∈ l
  | [], a => by simp [stableInsert]
  | y :: ys, a => by
    simp only [stableInsert]
    by_cases h : (le y x && !le x y) = true
    · rw [if_pos h]
      simp only [List.mem_cons, mem_stableInsert le x ys a]
      tauto
    · rw [if_neg h]
      simp only [List.mem_cons]

/-- Inserting into a list sorted under a total transitive comparator keeps
it sorted. -/
theorem pairwise_stableInsert (le : α → α → Bool)
    (htot : ∀ a b, le a b = true ∨ le b a = true)
    (htrans : ∀ a b c, le a b = true → le b c = true → le a c = true)
    (x : α) :
    ∀ l : List α, l.Pairwise (fun a b => le a b = true) →
      (stableInsert le x l).Pairwise (fun a b => le a b = true)
  | [], _ => by simp [stableInsert]
  | y :: ys, h => by
    rw [List.pairwise_cons] at h
    obtain ⟨hy, hys⟩ := h
    simp only [stableInsert]
    by_cases hc : (le y x && !le x y) = true
    · rw [if_pos hc]
      rw [List.pairwise_cons]
      refine ⟨?_, pairwise_stableInsert le htot htrans x ys hys⟩
      intro a ha
      rw [mem_stableInsert] at ha
      rcases ha with rfl | ha
      · exact (Bool.and_eq_true _ _ |>.mp hc).1
      · exact hy a ha
    · rw [if_neg hc]
      have hxy : le x y = true := by
        rcases htot x y with h' | h'
        · exact h'
        · by_contra hne
          have hxf : le x y = false := by
            cases hle : le x y with
            | false => rfl
            | true => exact absurd hle hne
          exact hc (by rw [h', hxf]; rfl)
      rw [List.pairwise_cons]
      refine ⟨?_, List.pairwise_cons.mpr ⟨hy, hys⟩⟩
      intro a ha
      rcases List.mem_cons.mp ha with rfl | ha
      · exact hxy
      · exact htrans x y a hxy (hy a ha)

/-- The stable sort sorts, for a total transitive comparator. -/
theorem pairwise_stableSort (le : α → α → Bool)
    (htot : ∀ a b, le a b = true ∨ le b a = true)
    (htrans : ∀ a b c, le a b = true → le b c = true → le a c = true) :
    ∀ l : List α, (stableSort le l).Pairwise (fun a b => le a b = true)
  | [] => by simp [stableSort]
  | x :: xs => by
    simp only [stableSort]
    exact pairwise_stableInsert le htot htrans x (stableSort le xs)
      (pairwise_stableSort le htot htrans xs)

/-- The exit set is sorted deepest first with **non-increasing** path
lengths (ties possible). -/
theorem nodesToExitOf_sorted (m : Machine Ctx)
    (affected : List (List String)) (lcaIndex : Nat) :
    (nodesToExitOf m affected lcaIndex).Pairwise
      (fun a b => b.1.length ≤ a.1.length) := by
  unfold nodesToExitOf
  refine List.Pairwise.imp (fun h => of_decide_eq_true h)
    (pairwise_stableSort _ ?_ ?_ _)
  · intro a b
    rcases Nat.le_total b.1.length a.1.length with h | h
    · exact Or.inl (decide_eq_true h)
    · exact Or.inr (decide_eq_true h)
  · intro a b c hab hbc
    have hab' := of_decide_eq_true hab
    have hbc' := of_decide_eq_true hbc
    exact decide_eq_true (le_trans hbc' hab')

/-- The entry set is sorted shallowest first with **non-decreasing** path
lengths (ties possible). -/
theorem nodesToEnterOf_sorted (m : Machine Ctx)
    (affectedNext : List (List String)) (lcaIndex : Nat) :
    (nodesToEnterOf m affectedNext lcaIndex).Pairwise
      (fun a b => a.1.length ≤ b.1.length) := by
  unfold nodesToEnterOf
  refine List.Pairwise.imp (fun h => of_decide_eq_true h)
    (pairwise_stableSort _ ?_ ?_ _)
  · intro a b
    rcases Nat.le_total a.1.length b.1.length with h | h
    · exact Or.inl (decide_eq_true h)
    · exact Or.inr (decide_eq_true h)
  · intro a b c hab hbc
    have hab' := of_decide_eq_true hab
    have hbc' := of_decide_eq_true hbc
    exact decide_eq_true (le_trans hab' hbc')

/-- First region of the parallel STOP machine: `r1` with child `r1a`,
exit actions reporting `xr1` / `xr1a`. -/
def stopRegion1 : Node Unit :=
  (((Node.empty.withInitial "r1a").withStates
    [("r1a",
      Node.empty.withExit (.one (.direct fun c _ => (c, some "xr1a"))))]).withExit
    (.one (.direct fun c _ => (c, some "xr1"))))

/-- Second region of the parallel STOP machine. -/
def stopRegion2 : Node Unit :=
  (((Node.empty.withInitial "r2a").withStates
    [("r2a",
      Node.empty.withExit (.one (.direct fun c _ => (c, some "xr2a"))))]).withExit
    (.one (.direct fun c _ => (c, some "xr2"))))

/-- A parallel state `active` (regions `r1`, `r2`, all nodes with marker
exit actions) whose `STOP` handler targets the sibling `idle` (marker
entry action); the transition itself reports `tstop`. -/
def parallelStopMachine : Machine Unit :=
  { config :=
      { initial := "active",
        states := [("active",
          ((((Node.empty.withType .parallel).withStates
            [("r1", stopRegion1), ("r2", stopRegion2)]).withExit
            (.one (.direct fun c _ => (c, some "xact")))).withOn
            [("STOP", .cfg
              { target := some "idle",
                actions := some (.one (.direct fun c _ =>
                  (c, some "tstop"))) })])),
          ("idle",
            Node.empty.withEntry (.one (.direct fun c _ =>
              (c, some "eidle"))))] },
    initialState := "active" }

/-- The started parallel STOP actor: `{active: {r1: r1a, r2: r2a}}`. -/
def parallelStopStart : AState Unit :=
  { currentState := getInitialStateValue 100 parallelStopMachine,
    currentContext := () }

/-- The transition `scanPaths` selects for `STOP`: found at `["active"]`. -/
def stopFound : FoundTransition Unit :=
  { transition :=
      { target := some "idle",
        actions := some (.one (.direct fun c _ => (c, some "tstop"))) },
    fromPath := ["active"] }

/-- The literal result of applying the `STOP` transition. -/
def stopResult : TransitionResult Unit :=
  { nextState := .leaf "idle",
    nextContext := (),
    changed := true,
    effects := ["xr1a", "xr2a", "xr1", "xr2", "xact", "tstop", "eidle"],
    historyValue := some
      [("active.r1", .leaf "r1a"),
       ("active", .obj [("r1", .leaf "r1a"), ("r2", .leaf "r2a")]),
       ("active.r2", .leaf "r2a")] }

/-- C3 counterexample: on the parallel STOP machine the selected
transition's exit set has path lengths `[3, 3, 2, 2, 1]` — equal-depth
nodes from distinct regions — so the exit order is **not** strictly
decreasing in path length as claimed; the executed effect order
(`computeTransition`) interleaves the equal-depth exits in document order
before the transition and entry actions. -/
theorem c3_counterexample_parallel_exit_ties :
    scanPaths parallelStopMachine
        (stateValueToPaths parallelStopStart.currentState)
        ⟨"STOP", none⟩ () = some stopFound ∧
    lcaIndexOf stopFound.fromPath
        (resolveFullTargetPath parallelStopMachine stopFound.transition
          stopFound.fromPath) = 0 ∧
    (nodesToExitOf parallelStopMachine
        ((stateValueToPaths parallelStopStart.currentState).filter
          (pathAffected 0 [])) 0).map (fun q => q.1.length) =
      [3, 3, 2, 2, 1] ∧
    ¬ List.Pairwise (fun a b : Nat => b < a) [3, 3, 2, 2, 1] ∧
    (computeTransition 30 parallelStopMachine parallelStopStart.currentState
        () ⟨"STOP", none⟩ []).map (fun r => (r.nextState, r.effects)) =
      some (.leaf "idle",
        ["xr1a", "xr2a", "xr1", "xr2", "xact", "tstop", "eidle"]) :=
  ⟨rfl, rfl, rfl, by decide, rfl⟩

/-- C3 (amended): for every applied transition the exit set is ordered
deepest-first with non-increasing path lengths, the entry set
shallowest-first with non-decreasing path lengths (ties, which arise under
a parallel LCA, stay in discovery order), and the produced effects are
exactly the exit actions, then the transition actions, then the entry
actions, each threading the context left to right. -/
theorem c3_action_order (fuel : Nat) (m : Machine Ctx) (currentState : SV)
    (currentPaths : List (List String)) (ctx : Ctx) (e : Event)
    (histv : List (String × SV)) (found : FoundTransition Ctx)
    (r : TransitionResult Ctx)
    (happ : applyTransition fuel m currentState currentPaths ctx e histv
      found = some r) :
    let fullTargetPath :=
      resolveFullTargetPath m found.transition found.fromPath
    let lcaIndex := lcaIndexOf found.fromPath fullTargetPath
    let lcaPath := found.fromPath.take lcaIndex
    let nodesToExit := nodesToExitOf m
      (currentPaths.filter (pathAffected lcaIndex lcaPath)) lcaIndex
    List.Pairwise (fun a b => b.1.length ≤ a.1.length) nodesToExit ∧
    ∃ nextStateValue, resolveTarget fuel m fullTargetPath histv =
        some nextStateValue ∧
      let nodesToEnter := nodesToEnterOf m
        ((stateValueToPaths nextStateValue).filter
          (pathAffected lcaIndex lcaPath)) lcaIndex
      List.Pairwise (fun a b => a.1.length ≤ b.1.length) nodesToEnter ∧
      r.effects =
        (runNodeActions m Node.exit nodesToExit ctx e).2 ++
        (executeActions found.transition.actions
          (runNodeActions m Node.exit nodesToExit ctx e).1 e
          m.implementations).2 ++
        (runNodeActions m Node.entry nodesToEnter
          (executeActions found.transition.actions
            (runNodeActions m Node.exit nodesToExit ctx e).1 e
            m.implementations).1 e).2 := by
  dsimp only []
  unfold applyTransition at happ
  dsimp only [] at happ
  refine ⟨nodesToExitOf_sorted m _ _, ?_⟩
  split at happ
  · exact absurd happ (by simp)
  · rename_i nextStateValue hres
    split at happ
    · exact absurd happ (by simp)
    · rename_i completed hcomp
      cases happ
      exact ⟨nextStateValue, hres, nodesToEnterOf_sorted m _ _, rfl⟩


/-- C3 witness: the amended order theorem applied to the parallel STOP
machine, where the transition applies with result `stopResult`. -/
theorem c3_action_order_witness :
    (let fullTargetPath := resolveFullTargetPath parallelStopMachine
       stopFound.transition stopFound.fromPath
     let lcaIndex := lcaIndexOf stopFound.fromPath fullTargetPath
     let lcaPath := stopFound.fromPath.take lcaIndex
     let nodesToExit := nodesToExitOf parallelStopMachine
       ((stateValueToPaths parallelStopStart.currentState).filter
         (pathAffected lcaIndex lcaPath)) lcaIndex
     List.Pairwise (fun a b => b.1.length ≤ a.1.length) nodesToExit ∧
     ∃ nextStateValue, resolveTarget 30 parallelStopMachine fullTargetPath
         [] = some nextStateValue ∧
       let nodesToEnter := nodesToEnterOf parallelStopMachine
         ((stateValueToPaths nextStateValue).filter
           (pathAffected lcaIndex lcaPath)) lcaIndex
       List.Pairwise (fun a b => a.1.length ≤ b.1.length) nodesToEnter ∧
       stopResult.effects =
         (runNodeActions parallelStopMachine Node.exit nodesToExit ()
           ⟨"STOP", none⟩).2 ++
         (executeActions stopFound.transition.actions
           (runNodeActions parallelStopMachine Node.exit nodesToExit ()
             ⟨"STOP", none⟩).1 ⟨"STOP", none⟩
           parallelStopMachine.implementations).2 ++
         (runNodeActions parallelStopMachine Node.entry nodesToEnter
           (executeActions stopFound.transition.actions
             (runNodeActions parallelStopMachine Node.exit nodesToExit ()
               ⟨"STOP", none⟩).1 ⟨"STOP", none⟩
             parallelStopMachine.implementations).1 ⟨"STOP", none⟩).2) :=
  c3_action_order 30 parallelStopMachine parallelStopStart.currentState
    (stateValueToPaths parallelStopStart.currentState) () ⟨"STOP", none⟩ []
    stopFound stopResult rfl


/-! ## C4 — external self-transitions restart the source

`computeTransition` decrements the LCA index when the common prefix of
source and resolved target covers the whole source path, so a
self-transition exits and re-enters its source. -/

/-- A successful scan yields the result of some active path's search. -/
theorem scanPaths_some {m : Machine Ctx} {e : Event} {ctx : Ctx} :
    ∀ {paths : List (List String)} {found : FoundTransition Ctx},
      scanPaths m paths e ctx = some found →
      ∃ p ∈ paths, findTransitionInPath m p e ctx = some found
  | [], _, h => by simp [scanPaths] at h
  | p :: rest, found, h => by
    simp only [scanPaths] at h
    cases hf : findTransitionInPath m p e ctx with
    | some r =>
      rw [hf] at h
      cases h
      exact ⟨p, List.mem_cons_self _ _, hf⟩
    | none =>
      rw [hf] at h
      obtain ⟨q, hq, hfq⟩ := scanPaths_some h
      exact ⟨q, List.mem_cons_of_mem _ hq, hfq⟩

/-- A found transition comes from `tryLevel` on a nonempty `take`-prefix of
the searched path. -/
theorem findTransitionInPathAux_some {m : Machine Ctx} {p : List String}
    {e : Event} {ctx : Ctx} :
    ∀ {i : Nat} {found : FoundTransition Ctx},
      findTransitionInPathAux m p e ctx i = some found →
      ∃ j, 1 ≤ j ∧ j ≤ i ∧ found.fromPath = p.take j ∧
        tryLevel m found.fromPath e ctx = some found.transition
  | 0, _, h => by simp [findTransitionInPathAux] at h
  | i + 1, found, h => by
    simp only [findTransitionInPathAux] at h
    cases ht : tryLevel m (p.take (i + 1)) e ctx with
    | some t =>
      rw [ht] at h
      cases h
      exact ⟨i + 1, by omega, le_refl _, rfl, ht⟩
    | none =>
      rw [ht] at h
      obtain ⟨j, h1, h2, h3, h4⟩ := findTransitionInPathAux_some h
      exact ⟨j, h1, by omega, h3, h4⟩

/-- `tryLevel` succeeds only on an existing node. -/
theorem tryLevel_node {m : Machine Ctx} {cp : List String} {e : Event}
    {ctx : Ctx} {t : TransitionConfig Ctx}
    (h : tryLevel m cp e ctx = some t) :
    ∃ n, getStateNodeByPath m cp = some n := by
  unfold tryLevel at h
  cases hn : getStateNodeByPath m cp with
  | none => rw [hn] at h; exact absurd h (by simp)
  | some n => exact ⟨n, rfl⟩

/-- A path agrees with itself segment by segment. -/
theorem commonPrefixLen_self :
    ∀ p : List String, commonPrefixLen p p = p.length
  | [] => rfl
  | a :: as_ => by
    simp [commonPrefixLen, commonPrefixLen_self as_]

/-- The self-transition adjustment: the LCA of a path with itself is its
parent. -/
theorem lcaIndexOf_self (p : List String) :
    lcaIndexOf p p = p.length - 1 := by
  unfold lcaIndexOf
  rw [commonPrefixLen_self]
  simp

/-- The stable sort is a permutation membership-wise. -/
theorem mem_stableSort (le : α → α → Bool) :
    ∀ (l : List α) (a : α), a ∈ stableSort le l ↔ a ∈ l
  | [], a => by simp [stableSort]
  | x :: xs, a => by
    simp only [stableSort, mem_stableInsert, mem_stableSort le xs a,
      List.mem_cons]

/-- A listed path with an existing node and an injective joined name
appears in the collected node list. -/
theorem mem_collectNodesAux {m : Machine Ctx} {sub : List String}
    {n : Node Ctx} (hn : getStateNodeByPath m sub = some n) :
    ∀ (visited : List String) (subs : List (List String)),
      sub ∈ subs →
      (∀ s ∈ subs, jsJoinDot s = jsJoinDot sub → s = sub) →
      visited.contains (jsJoinDot sub) = false →
      ∃ n', (sub, n') ∈ collectNodesAux m visited subs
  | _, [], hmem, _, _ => by cases hmem
  | visited, s' :: rest, hmem, hinj, hvis => by
    by_cases heq : s' = sub
    · subst heq
      have hnotin : jsJoinDot s' ∉ visited := by simpa using hvis
      exact ⟨n, by simp [collectNodesAux, hnotin, hn]⟩
    · have hjoin : jsJoinDot s' ≠ jsJoinDot sub := fun hj =>
        heq (hinj s' (List.mem_cons_self _ _) hj)
      have hmem' : sub ∈ rest := by
        rcases List.mem_cons.mp hmem with h | h
        · exact absurd h.symm heq
        · exact h
      have hinj' : ∀ s ∈ rest, jsJoinDot s = jsJoinDot sub → s = sub :=
        fun s hs => hinj s (List.mem_cons_of_mem _ hs)
      by_cases hv : jsJoinDot s' ∈ visited
      · obtain ⟨n', h'⟩ := mem_collectNodesAux hn visited rest hmem' hinj' hvis
        refine ⟨n', ?_⟩
        simp only [collectNodesAux]
        rw [if_pos (by simpa using hv)]
        exact h'
      · have hvis' : (jsJoinDot s' :: visited).contains (jsJoinDot sub) =
            false := by
          have h1 : (jsJoinDot sub == jsJoinDot s') = false :=
            beq_eq_false_iff_ne.mpr (fun h => hjoin h.symm)
          simp only [List.contains_cons, h1, Bool.false_or]
          exact hvis
        obtain ⟨n', h'⟩ :=
          mem_collectNodesAux hn (jsJoinDot s' :: visited) rest hmem'
            hinj' hvis'
        refine ⟨n', ?_⟩
        simp only [collectNodesAux]
        rw [if_neg (by simpa using hv)]
        cases hg : getStateNodeByPath m s' with
        | some n2 => exact List.mem_cons_of_mem _ h'
        | none => exact h'

/-- A path extending the prefix used as LCA passes the affectedness
test. -/
theorem pathAffected_prefix {q p : List String} (L : Nat)
    (hL : L ≤ q.length) (hpre : q <+: p) :
    pathAffected L (q.take L) p = true := by
  unfold pathAffected
  simp only [Bool.and_eq_true, decide_eq_true_eq, List.all_eq_true]
  refine ⟨le_trans hL hpre.length_le, ?_⟩
  intro i hi
  have hi' : i < L := List.mem_range.mp hi
  have h1 : (q.take L).getD i "" = q.getD i "" := by
    rw [List.getD_eq_getElem?_getD, List.getD_eq_getElem?_getD,
      List.getElem?_take, if_pos hi']
  have h2 : p.getD i "" = q.getD i "" :=
    (prefix_iff_forall_getD q p hpre.length_le).mpr hpre i
      (lt_of_lt_of_le hi' hL)
  rw [h1, h2]

/-- A prefix of length at least `stop` is listed by the descending prefix
enumeration. -/
theorem mem_prefixesDescFrom {q p : List String} (stop : Nat)
    (hpre : q <+: p) (hstop : stop ≤ q.length) :
    q ∈ prefixesDescFrom p stop := by
  unfold prefixesDescFrom
  rw [List.mem_map]
  have hle := hpre.length_le
  refine ⟨p.length - q.length, List.mem_range.mpr (by omega), ?_⟩
  have h1 : p.length - (p.length - q.length) = q.length := by omega
  rw [h1]
  exact (List.prefix_iff_eq_take.mp hpre).symm

/-- A prefix of length at least `start` is listed by the ascending prefix
enumeration. -/
theorem mem_prefixesAscFrom {q p : List String} (start : Nat)
    (hpre : q <+: p) (hstart : start ≤ q.length) :
    q ∈ prefixesAscFrom p start := by
  unfold prefixesAscFrom
  rw [List.mem_map]
  have hle := hpre.length_le
  refine ⟨q.length - start, List.mem_range.mpr (by omega), ?_⟩
  have h1 : start + (q.length - start) = q.length := by omega
  rw [h1]
  exact (List.prefix_iff_eq_take.mp hpre).symm


/-- C4: a selected transition whose resolved target path equals its source
path gets the parent of the source as LCA, and the source node itself is a
member of both the exit set and the entry set (so it is exited and
re-entered, its children re-initialised by the target resolution). -/
theorem c4_self_transition_restart (fuel : Nat) (m : Machine Ctx)
    (currentPaths : List (List String)) (ctx : Ctx) (e : Event)
    (histv : List (String × SV)) (found : FoundTransition Ctx)
    (hscan : scanPaths m currentPaths e ctx = some found)
    (htgt : resolveFullTargetPath m found.transition found.fromPath =
      found.fromPath)
    (nsv : SV)
    (hres : resolveTarget fuel m found.fromPath histv = some nsv)
    (p₁ : List String) (hp₁ : p₁ ∈ stateValueToPaths nsv)
    (hpre₁ : found.fromPath <+: p₁)
    (hinjExit : ∀ s ∈ (currentPaths.filter
        (pathAffected (found.fromPath.length - 1)
          (found.fromPath.take (found.fromPath.length - 1)))).flatMap
        (fun p => prefixesDescFrom p (found.fromPath.length - 1 + 1)),
      jsJoinDot s = jsJoinDot found.fromPath → s = found.fromPath)
    (hinjEnter : ∀ s ∈ ((stateValueToPaths nsv).filter
        (pathAffected (found.fromPath.length - 1)
          (found.fromPath.take (found.fromPath.length - 1)))).flatMap
        (fun p => prefixesAscFrom p (found.fromPath.length - 1 + 1)),
      jsJoinDot s = jsJoinDot found.fromPath → s = found.fromPath) :
    lcaIndexOf found.fromPath
        (resolveFullTargetPath m found.transition found.fromPath) =
      found.fromPath.length - 1 ∧
    found.fromPath ∈ (nodesToExitOf m
        (currentPaths.filter
          (pathAffected (found.fromPath.length - 1)
            (found.fromPath.take (found.fromPath.length - 1))))
        (found.fromPath.length - 1)).map Prod.fst ∧
    found.fromPath ∈ (nodesToEnterOf m
        ((stateValueToPaths nsv).filter
          (pathAffected (found.fromPath.length - 1)
            (found.fromPath.take (found.fromPath.length - 1))))
        (found.fromPath.length - 1)).map Prod.fst := by
  obtain ⟨p₀, hp₀, hfind⟩ := scanPaths_some hscan
  unfold findTransitionInPath at hfind
  obtain ⟨j, hj1, hj2, hfp, htry⟩ := findTransitionInPathAux_some hfind
  obtain ⟨n, hn⟩ := tryLevel_node htry
  have hne : found.fromPath ≠ [] := by
    intro h0
    rw [h0] at hn
    simp [getStateNodeByPath] at hn
  have hlen : 0 < found.fromPath.length := List.length_pos.mpr hne
  have hpre₀ : found.fromPath <+: p₀ := by
    rw [hfp]
    exact List.take_prefix j p₀
  refine ⟨by rw [htgt]; exact lcaIndexOf_self _, ?_, ?_⟩
  · have haff₀ : pathAffected (found.fromPath.length - 1)
        (found.fromPath.take (found.fromPath.length - 1)) p₀ = true :=
      pathAffected_prefix _ (by omega) hpre₀
    have hmem0 : found.fromPath ∈ (currentPaths.filter
        (pathAffected (found.fromPath.length - 1)
          (found.fromPath.take (found.fromPath.length - 1)))).flatMap
        (fun p => prefixesDescFrom p (found.fromPath.length - 1 + 1)) :=
      List.mem_flatMap.mpr ⟨p₀, List.mem_filter.mpr ⟨hp₀, haff₀⟩,
        mem_prefixesDescFrom _ hpre₀ (by omega)⟩
    obtain ⟨n', hcoll⟩ :=
      mem_collectNodesAux hn [] _ hmem0 hinjExit rfl
    unfold nodesToExitOf
    exact List.mem_map.mpr ⟨(found.fromPath, n'),
      (mem_stableSort _ _ _).mpr hcoll, rfl⟩
  · have haff₁ : pathAffected (found.fromPath.length - 1)
        (found.fromPath.take (found.fromPath.length - 1)) p₁ = true :=
      pathAffected_prefix _ (by omega) hpre₁
    have hmem1 : found.fromPath ∈ ((stateValueToPaths nsv).filter
        (pathAffected (found.fromPath.length - 1)
          (found.fromPath.take (found.fromPath.length - 1)))).flatMap
        (fun p => prefixesAscFrom p (found.fromPath.length - 1 + 1)) :=
      List.mem_flatMap.mpr ⟨p₁, List.mem_filter.mpr ⟨hp₁, haff₁⟩,
        mem_prefixesAscFrom _ hpre₁ (by omega)⟩
    obtain ⟨n', hcoll⟩ :=
      mem_collectNodesAux hn [] _ hmem1 hinjEnter rfl
    unfold nodesToEnterOf
    exact List.mem_map.mpr ⟨(found.fromPath, n'),
      (mem_stableSort _ _ _).mpr hcoll, rfl⟩

/-- A compound `app` (initial `form`, children `form`/`other`) with a
self-transition `RESET: 'app'` and a `GO: 'other'` transition. -/
def selfMachine : Machine Unit :=
  { config :=
      { initial := "app",
        states := [("app",
          (((Node.empty.withInitial "form").withStates
            [("form", Node.empty), ("other", Node.empty)]).withOn
            [("RESET", .cfg {target := some "app"}),
             ("GO", .cfg {target := some "other"})]))] },
    initialState := "app" }

/-- The transition the scan selects for `RESET` in `{app: 'other'}`. -/
def foundReset : FoundTransition Unit :=
  { transition := { target := some "app" }, fromPath := ["app"] }

/-- The resolved target of the self-transition: `{app: 'form'}` — the
child re-initialised via `initial`. -/
def resetTargetSV : SV := .obj [("app", .leaf "form")]

/-- C4 witness: the self-transition theorem at the `RESET` self-transition
of `selfMachine` from `{app: 'other'}`, plus the end-to-end restart: the
processed event yields `{app: 'form'}`. -/
theorem c4_self_transition_restart_witness :
    (lcaIndexOf foundReset.fromPath
        (resolveFullTargetPath selfMachine foundReset.transition
          foundReset.fromPath) = foundReset.fromPath.length - 1 ∧
     foundReset.fromPath ∈ (nodesToExitOf selfMachine
        ([["app", "other"]].filter
          (pathAffected (foundReset.fromPath.length - 1)
            (foundReset.fromPath.take (foundReset.fromPath.length - 1))))
        (foundReset.fromPath.length - 1)).map Prod.fst ∧
     foundReset.fromPath ∈ (nodesToEnterOf selfMachine
        ((stateValueToPaths resetTargetSV).filter
          (pathAffected (foundReset.fromPath.length - 1)
            (foundReset.fromPath.take (foundReset.fromPath.length - 1))))
        (foundReset.fromPath.length - 1)).map Prod.fst) ∧
    (processEvent 20 selfMachine
        { currentState := .obj [("app", .leaf "other")],
          currentContext := () } ⟨"RESET", none⟩).map
      (fun s => s.currentState) = some (.obj [("app", .leaf "form")]) :=
  ⟨c4_self_transition_restart 30 selfMachine [["app", "other"]] ()
    ⟨"RESET", none⟩ [] foundReset rfl rfl resetTargetSV rfl ["app", "form"]
    (by decide) (by decide) (by decide) (by decide), rfl⟩


/-! ## C6, continued — an enabled `always` transition catches any event

`findTransitionInPath` checks `always` before the `on` map on every
processed event, so empty `on` maps alone do not make an event inert. -/

/-- One `PING`-triggered closure iteration from `a` lands in `b`. -/
theorem cyclicPingStepA (r : Nat) :
    processAlwaysAux 10 cyclicAlwaysMachine (r + 1) cyclicStart
        ⟨"PING", none⟩ =
      (processAlwaysAux 10 cyclicAlwaysMachine r cyclicStateB
          ⟨"PING", none⟩).map (fun p => (p.1, p.2 + 1)) := rfl

/-- One `PING`-triggered closure iteration from `b` lands back in `a`. -/
theorem cyclicPingStepB (r : Nat) :
    processAlwaysAux 10 cyclicAlwaysMachine (r + 1) cyclicStateB
        ⟨"PING", none⟩ =
      (processAlwaysAux 10 cyclicAlwaysMachine r cyclicStart
          ⟨"PING", none⟩).map (fun p => (p.1, p.2 + 1)) := rfl

/-- The `PING`-triggered cycle from `b` runs through any even budget. -/
theorem cyclicPingCycleB :
    ∀ k : Nat, processAlwaysAux 10 cyclicAlwaysMachine (2 * k) cyclicStateB
        ⟨"PING", none⟩ = some (cyclicStateB, 2 * k) := by
  intro k
  induction k with
  | zero => rfl
  | succ k ih =>
    have h2 : 2 * (k + 1) = (2 * k + 1) + 1 := by omega
    rw [h2, cyclicPingStepB (2 * k + 1), cyclicPingStepA (2 * k), ih]
    rfl

/-- C6 counterexample: on the cyclic machine the active node `a` has **no**
`on` map and the machine has no root-level `on` map, so the claim's
condition holds for the event `PING`; yet processing `PING` moves the actor
to `b` — the enabled `always` transition is selected for any event — so the
event is not dropped and the state is not left unchanged. -/
theorem c6_counterexample_always_fires_on_unmatched_event :
    (getStateNodeByPath cyclicAlwaysMachine ["a"]).map
        (fun n => n.«on») = some none ∧
    cyclicAlwaysMachine.config.«on» = none ∧
    (processEvent 10 cyclicAlwaysMachine cyclicStart ⟨"PING", none⟩).map
        (fun s => s.currentState) = some (.leaf "b") ∧
    SV.leaf "b" ≠ cyclicStart.currentState := by
  refine ⟨rfl, rfl, ?_, by decide⟩
  have h : processAlwaysAux 10 cyclicAlwaysMachine 100 cyclicStateB
      ⟨"PING", none⟩ = some (cyclicStateB, 100) := by
    have h2 := cyclicPingCycleB 50
    norm_num at h2
    exact h2
  have hpa : processAlways 10 cyclicAlwaysMachine cyclicStateB
      ⟨"PING", none⟩ = some (cyclicStateB, 100, true) := by
    simp [processAlways, h]
  have hpe : processEvent 10 cyclicAlwaysMachine cyclicStart
      ⟨"PING", none⟩ =
      (processAlways 10 cyclicAlwaysMachine cyclicStateB
        ⟨"PING", none⟩).map (fun p => p.1) := rfl
  rw [hpe, hpa]
  rfl


end UState




